import Mathlib

/-!
Verification development for the playback engine (`src/music/player.py` and
`src/music/stations.py`): a shallow embedding of the station directory, the
playback state machine, the frame slicer and gain stage, and the
generation-based cancellation protocol, together with theorems settling the
specification's claims about them.

Modelling conventions:
* Python dict records become Lean structures with the same field names.
* Byte strings become `List Nat` (each element a byte value `< 256`).
* The asynchronous parts (the ffmpeg subprocess and the read task) are
  modelled at the state-machine level: the live process is represented by
  `spawned_url` (the URL the current decode process was started with,
  `none` after a teardown), and the generation/cancellation protocol is
  modelled separately as a labelled transition system (`SupState`).
* The metadata poller only touches `now_playing` on success and is
  best-effort; it is not part of any claim's statement and is not modelled.
-/

/-! ### Station directory (`src/music/stations.py`) -/
structure Station where
  id : String
  name : String
  genre : String
  url : String
deriving DecidableEq, Repr

def STATIONS : List Station :=
  [ ⟨"groovesalad", "Groove Salad", "Chill", "https://ice2.somafm.com/groovesalad-128-mp3"⟩,
    ⟨"dronezone", "Drone Zone", "Ambient", "https://ice2.somafm.com/dronezone-128-mp3"⟩,
    ⟨"defcon", "DEF CON Radio", "Electronic", "https://ice2.somafm.com/defcon-128-mp3"⟩,
    ⟨"indiepop", "Indie Pop Rocks", "Indie Pop", "https://ice2.somafm.com/indiepop-128-mp3"⟩,
    ⟨"secretagent", "Secret Agent", "Lounge", "https://ice2.somafm.com/secretagent-128-mp3"⟩,
    ⟨"spacestation", "Space Station Soma", "Space", "https://ice2.somafm.com/spacestation-128-mp3"⟩ ]

def DEFAULT_STATION_ID : String := "groovesalad"

/-- `get_station`: first station whose id matches, else `None`
(`next((s for s in STATIONS if s["id"] == station_id), None)`). -/
def get_station (station_id : String) : Option Station :=
  STATIONS.find? (fun s => s.id == station_id)

/-! ### PCM constants (`player.py` lines 9-13) -/
def SAMPLE_RATE : Nat := 48000

def CHANNELS : Nat := 2

def FRAME_MS : Nat := 20

def SAMPLES_PER_FRAME : Nat := SAMPLE_RATE * FRAME_MS / 1000

def BYTES_PER_FRAME : Nat := SAMPLES_PER_FRAME * CHANNELS * 2

/-! ### Title derivation from a URL (`Player._title_from_url`, lines 264-271)

The helper uses Python's `urlparse(url).path`, `str.split`, `unquote` and
`re.sub(r"\.[^.]+$", "", name)`.  We embed the relevant subset of the
stdlib behaviour:
* `urlparse` scheme/netloc/query/fragment handling is translated from
  CPython's `urlsplit` (the `;params` splitting, which only matters for
  URLs containing a semicolon, is not modelled);
* `unquote` is modelled byte-wise on the character sequence: a `%XX` hex
  escape decodes to the character with that code point, and invalid
  escapes are kept literally, exactly as CPython does for ASCII data
  (multi-byte UTF-8 escape sequences are outside the modelled subset);
* the regex `\.[^.]+$` removes a final dot followed by one or more
  non-dot characters, which on the split-by-dots view is: drop the last
  dot-separated component when it is nonempty and a dot exists. -/
def valid_scheme (cs : List Char) : Bool :=
  match cs with
  | [] => false
  | c :: rest => c.isAlpha && rest.all (fun d => d.isAlphanum || d == '+' || d == '-' || d == '.')

/-- Split a character list at the first occurrence of `c` (dropping it those). -/
def splitAtFirst (c : Char) : List Char → Option (List Char × List Char)
  | [] => none
  | d :: ds =>
    if d == c then some ([], ds)
    else (splitAtFirst c ds).map (fun p => (d :: p.1, p.2))

/-- Drop a leading `scheme:` when the part before the first colon is a valid
scheme (CPython `urlsplit`: `i = url.find(':'); if i > 0 and ...`). -/
def splitScheme (l : List Char) : List Char :=
  match splitAtFirst ':' l with
  | some (before, after) => if valid_scheme before then after else l
  | none => l

/-- Drop a leading `//netloc` (up to the next `/`, `?` or `#`). -/
def stripNetloc (l : List Char) : List Char :=
  match l with
  | '/' :: '/' :: rest => rest.dropWhile (fun c => !(c == '/' || c == '?' || c == '#'))
  | _ => l

/-- `urlparse(url).path` for the modelled subset: strip scheme, strip
`//netloc`, then keep everything before the first `?` or `#`. -/
def urlparse_path_chars (l : List Char) : List Char :=
  (stripNetloc (splitScheme l)).takeWhile (fun c => !(c == '?' || c == '#'))

def urlparse_path (url : String) : String :=
  (urlparse_path_chars url.data).asString

def hexVal (c : Char) : Option Nat :=
  if '0' ≤ c ∧ c ≤ '9' then some (c.toNat - '0'.toNat)
  else if 'a' ≤ c ∧ c ≤ 'f' then some (c.toNat - 'a'.toNat + 10)
  else if 'A' ≤ c ∧ c ≤ 'F' then some (c.toNat - 'A'.toNat + 10)
  else none

/-- Percent-decoding (`urllib.parse.unquote`) on the modelled ASCII subset:
`%XX` with two hex digits becomes the character with code `XX`; a `%` not
followed by two hex digits is kept literally. -/
def unquote_chars : List Char → List Char
  | [] => []
  | '%' :: a :: b :: rest =>
    match hexVal a, hexVal b with
    | some x, some y => Char.ofNat (16 * x + y) :: unquote_chars rest
    | _, _ => '%' :: unquote_chars (a :: b :: rest)
  | c :: rest => c :: unquote_chars rest

def unquote (s : String) : String := (unquote_chars s.data).asString

/-- `str.split(sep)` for a one-character separator, as in Python: empty
pieces are kept and the empty input gives one empty piece. -/
def splitOnChar (c : Char) : List Char → List (List Char)
  | [] => [[]]
  | d :: ds =>
    let r := splitOnChar c ds
    if d == c then [] :: r
    else
      match r with
      | [] => [[d]]
      | x :: xs => (d :: x) :: xs

/-- `sep.join(parts)` for a one-character separator. -/
def joinWithChar (c : Char) : List (List Char) → List Char
  | [] => []
  | [x] => x
  | x :: xs => x ++ c :: joinWithChar c xs

/-- `re.sub(r"\.[^.]+$", "", name)`: remove the final extension when the
last dot-separated component is nonempty and a dot is present. -/
def strip_extension_chars (name : List Char) : List Char :=
  let parts := splitOnChar '.' name
  match parts.getLast? with
  | some last =>
    if parts.length ≥ 2 ∧ last ≠ [] then joinWithChar '.' parts.dropLast
    else name
  | none => name

/-- `Player._title_from_url` (lines 264-271): last path segment of the URL
(or the whole URL when that segment is empty), percent-decoded, with the
final extension removed.  The `try/except` wrapper is not modelled because
the embedded helpers are total. -/
def title_from_url (url : String) : String :=
  let pathname := urlparse_path_chars url.data
  let parts := splitOnChar '/' pathname
  let filename :=
    match parts.getLast? with
    | some s => if s = [] then url.data else s
    | none => url.data
  (strip_extension_chars (unquote_chars filename)).asString

/-! ### Queue entries and engine state (`Player.__init__`, lines 19-33) -/
structure Entry where
  id : String
  url : String
  title : String
  addedBy : String
deriving DecidableEq, Repr

instance : Inhabited Entry := ⟨⟨"", "", "", ""⟩⟩

/-- The mutable fields of `Player` that the claims are about.  `spawned_url`
abstracts `self._ffmpeg`: the URL the live decode process was spawned with,
`none` when the process has been torn down. -/
structure PlayerState where
  ffmpeg_generation : Nat
  current_station_id : String
  queue : List Entry
  current_track : Option Entry
  now_playing : Option String
  volume : Int
  paused : Bool
  mode : String
  id_counter : Nat
  pcm_buffer : List Nat
  spawned_url : Option String
deriving DecidableEq, Repr

/-- `Player.__init__` (lines 19-33). -/
def initPlayer : PlayerState :=
  { ffmpeg_generation := 0
    current_station_id := DEFAULT_STATION_ID
    queue := []
    current_track := none
    now_playing := none
    volume := 80
    paused := false
    mode := "radio"
    id_counter := 0
    pcm_buffer := []
    spawned_url := none }

/-- `Player._stop_ffmpeg` (lines 202-221), state-machine view: bump the
generation, tear the process down, clear the PCM buffer. -/
def stop_ffmpeg (s : PlayerState) : PlayerState :=
  { s with ffmpeg_generation := s.ffmpeg_generation + 1
           spawned_url := none
           pcm_buffer := [] }

/-- `Player._spawn_ffmpeg` (lines 130-152): stop the previous source, reset
the buffer, start a decode process for `url`. -/
def spawn_ffmpeg (url : String) (s : PlayerState) : PlayerState :=
  let s := stop_ffmpeg s
  { s with pcm_buffer := [], spawned_url := some url }

/-- `Player._play_radio` (lines 110-118). -/
def play_radio (s : PlayerState) : PlayerState :=
  let s := { s with mode := "radio", current_track := none }
  match get_station s.current_station_id with
  | none => s
  | some station => spawn_ffmpeg station.url { s with now_playing := some station.name }

/-- `Player._play_next_from_queue` (lines 120-128). -/
def play_next_from_queue (s : PlayerState) : PlayerState :=
  match s.queue with
  | [] => play_radio s
  | entry :: rest =>
    spawn_ffmpeg entry.url
      { s with mode := "queue", queue := rest,
               current_track := some entry, now_playing := some entry.title }

/-- `Player.enqueue` (lines 57-70).  `title or self._title_from_url(url)`:
an empty title falls back to the derived one.  The metadata poller shutdown
on the radio branch only cancels the poller task and is not part of the
modelled state. -/
def enqueue (url title added_by : String) (s : PlayerState) : Entry × PlayerState :=
  let counter := s.id_counter + 1
  let entry : Entry :=
    { id := toString counter
      url := url
      title := if title = "" then title_from_url url else title
      addedBy := added_by }
  let s1 := { s with id_counter := counter, queue := s.queue ++ [entry] }
  if s1.mode = "radio" then (entry, play_next_from_queue (stop_ffmpeg s1))
  else (entry, s1)

/-- `Player.remove_from_queue` (lines 72-77): pop the first entry whose id
matches and report whether one was found. -/
def remove_from_queue (entry_id : String) (s : PlayerState) : Bool × PlayerState :=
  match s.queue.findIdx? (fun e => e.id == entry_id) with
  | some i => (true, { s with queue := s.queue.eraseIdx i })
  | none => (false, s)

/-- `Player.skip` (lines 79-82). -/
def skip (s : PlayerState) : PlayerState :=
  if s.mode = "queue" then play_next_from_queue (stop_ffmpeg s) else s

/-- `Player.set_station` (lines 84-93). -/
def set_station (station_id : String) (s : PlayerState) : Bool × PlayerState :=
  match get_station station_id with
  | none => (false, s)
  | some _ =>
    let s := { s with current_station_id := station_id }
    if s.mode = "radio" then (true, play_radio (stop_ffmpeg s)) else (true, s)

/-- `Player.set_volume` (lines 95-96); the control surface passes an `int`,
on which Python's `round` is the identity. -/
def set_volume (vol : Int) (s : PlayerState) : PlayerState :=
  { s with volume := max 0 (min 100 vol) }

/-- `Player.toggle_pause` (lines 98-106), state-machine view: the process
signal does not change any modelled field. -/
def toggle_pause (s : PlayerState) : Bool × PlayerState :=
  (!s.paused, { s with paused := !s.paused })

/-- The cooldown before an ambient station is re-spawned after its decode
process exits (`await asyncio.sleep(3)`, line 177). -/
def COOLDOWN_SECONDS : Nat := 3

/-- The exhausted-source handling of `Player._read_loop` (lines 171-179),
reached when the process's output ends while the task's generation is still
current: in queue mode the engine advances immediately (delay 0), otherwise
it waits the cooldown and re-spawns the station.  Returns the delay in
seconds together with the successor state. -/
def on_source_exhausted (s : PlayerState) : Nat × PlayerState :=
  if s.mode = "queue" then (0, play_next_from_queue s)
  else (COOLDOWN_SECONDS, play_radio s)

/-- The snapshot dict built by `Player.get_state` (lines 41-50). -/
structure StateSnapshot where
  mode : String
  paused : Bool
  volume : Int
  nowPlaying : Option String
  currentStation : Option Station
  queue : List Entry
deriving DecidableEq, Repr

/-- `Player.get_state` (lines 41-50), value-level view.  The method only
reads fields, so the engine state is returned unchanged alongside the
snapshot.  (The sharing structure of the snapshot — which parts are copies
and which are references — is modelled separately below.) -/
def get_state (s : PlayerState) : StateSnapshot × PlayerState :=
  ({ mode := s.mode
     paused := s.paused
     volume := s.volume
     nowPlaying := s.now_playing
     currentStation := get_station s.current_station_id
     queue := s.queue }, s)

/-- Reachable engine states: the constructor set mirrors the operations the
control surface and the read loop can invoke.  `main.py` constructs the
player and immediately awaits `start()` (which is `_play_radio`), so both
the freshly constructed state and the started state are roots. -/
inductive Reach : PlayerState → Prop
  | init : Reach initPlayer
  | started : Reach (play_radio initPlayer)
  | enqueue (url title added_by : String) {s} : Reach s → Reach (enqueue url title added_by s).2
  | remove (entry_id : String) {s} : Reach s → Reach (remove_from_queue entry_id s).2
  | skip {s} : Reach s → Reach (skip s)
  | set_station (station_id : String) {s} : Reach s → Reach (set_station station_id s).2
  | set_volume (vol : Int) {s} : Reach s → Reach (set_volume vol s)
  | toggle_pause {s} : Reach s → Reach (toggle_pause s).2
  | exhausted {s} : Reach s → Reach (on_source_exhausted s).2

/-! ### Injectivity of the decimal id rendering

`Player.enqueue` assigns `str(self._id_counter)` as the entry id; freshness
of new ids relies on distinct counters rendering to distinct strings.  We
prove `toString : Nat → String` injective via an explicit recursive digit
list that `Nat.toDigitsCore` computes. -/
def digitsRec (n : Nat) : List Char :=
  if _h : n < 10 then [Nat.digitChar n]
  else digitsRec (n / 10) ++ [Nat.digitChar (n % 10)]
decreasing_by exact Nat.div_lt_self (by omega) (by omega)

/-! ### Reachable-state invariant -/
/-- The pieces of the engine invariant that do not depend on the mode:
a valid current station, pairwise-distinct queue ids all rendered from
counters at most `id_counter`, and a clamped volume. -/
structure CoreInv (s : PlayerState) : Prop where
  station_ok : (get_station s.current_station_id).isSome
  ids_nodup : List.Pairwise (fun a b => a.id ≠ b.id) s.queue
  ids_bounded : ∀ e ∈ s.queue, ∃ k, k ≤ s.id_counter ∧ e.id = toString k
  vol_lo : 0 ≤ s.volume
  vol_hi : s.volume ≤ 100

/-- The full engine invariant over reachable states. -/
structure PlayerInv (s : PlayerState) extends CoreInv s : Prop where
  mode_ok : s.mode = "radio" ∨ s.mode = "queue"
  radio_queue : s.mode = "radio" → s.queue = []
  radio_track : s.mode = "radio" → s.current_track = none
  queue_track : s.mode = "queue" → s.current_track.isSome
  track_id : ∀ e, s.current_track = some e → ∃ k, k ≤ s.id_counter ∧ e.id = toString k
  track_fresh : ∀ e, s.current_track = some e → ∀ e2 ∈ s.queue, e2.id ≠ e.id

/-! ### Frame slicer and gain stage (`_drain_frames` / `_apply_volume`)

`_apply_volume` computes `round(s * gain)` per sample with
`gain = self._volume / 100.0`: an IEEE binary64 division, a binary64
multiplication, and Python's `round` (nearest integer, ties to even),
then clamps into `[-32768, 32767]` and re-packs as `<h` (signed 16-bit
little-endian).  Binary64 values are exact rationals, so the float
pipeline is embedded exactly: `flRat` rounds a rational to the nearest
53-bit-significand value, ties to even (the binary64 rounding; the
exponent is unbounded, which agrees with IEEE on this pipeline's values —
gains in `{0} ∪ [1/100, 1)` and products bounded by `2^15`, all far from
the subnormal and overflow ranges), and `rndeRat` is `round` on the exact
value of a double.  The per-sample computation is
`clamp16 (rndeRat (flRat (s * flRat (v / 100))))`.  For the witnesses and
the counterexample the same computation is carried out in pure integer
arithmetic (`flQ`, `rndeDiv`, dyadic mantissa/exponent pairs), which the
kernel can evaluate; bridge theorems prove the two layers equal. -/
/-- Round-half-to-even of the exact rational `n / 100`: the value the
specified formula `round(s * v/100)` denotes when read exactly.  The gain
stage computes the float pipeline instead, which differs at tie-adjacent
inputs (see the C6 counterexample). -/
def pyRound100 (n : Int) : Int :=
  let f := n / 100
  let r := n % 100
  if 2 * r < 100 then f
  else if 100 < 2 * r then f + 1
  else if 2 ∣ f then f else f + 1

/-- `max(-32768, min(32767, x))` (line 199). -/
def clamp16 (x : Int) : Int := max (-32768) (min 32767 x)

/-- Round a rational to the nearest integer, ties to even (Python's
`round`, which on a float computes exactly this on the float's value). -/
def rndeRat (q : ℚ) : ℤ :=
  if q - ⌊q⌋ < 1/2 then ⌊q⌋
  else if (1:ℚ)/2 < q - ⌊q⌋ then ⌊q⌋ + 1
  else if 2 ∣ ⌊q⌋ then ⌊q⌋ else ⌊q⌋ + 1

/-- Round-half-even of `a / b` for `b > 0`, in integer arithmetic. -/
def rndeDiv (a : ℤ) (b : ℕ) : ℤ :=
  let f := a / (b : ℤ)
  let r := a % (b : ℤ)
  if 2 * r < (b : ℤ) then f
  else if (b : ℤ) < 2 * r then f + 1
  else if 2 ∣ f then f else f + 1

/-- Fuel-based ⌊log2 n⌋ (structural recursion, so the kernel can
evaluate it; `Nat.log2` is defined by well-founded recursion and
cannot be evaluated by `decide`). -/
def log2Nat : Nat → Nat → Nat
  | 0, _ => 0
  | fuel + 1, n => if n ≤ 1 then 0 else log2Nat fuel (n / 2) + 1

def mylog2 (n : Nat) : Nat := log2Nat n n

/-- Whether `2^g ≤ a / b`, decided in integer arithmetic. -/
def pow2_le_fraction (a b : ℕ) (g : ℤ) : Bool :=
  if 0 ≤ g then decide (b * 2 ^ g.toNat ≤ a) else decide (b ≤ a * 2 ^ (-g).toNat)

/-- `⌊log2 (a/b)⌋` for `a, b ≥ 1`, in integer arithmetic. -/
def floorLog2Q (a b : ℕ) : ℤ :=
  let g : ℤ := (mylog2 a : ℤ) - (mylog2 b : ℤ)
  if pow2_le_fraction a b g then g else g - 1

/-- Exponent of the binade of `|q|`: `⌊log2 |q|⌋` (junk at 0). -/
def qexp (q : ℚ) : ℤ := floorLog2Q q.num.natAbs q.den

/-- Binary64 round-to-nearest, ties to even, on exact rational values:
scale `q` into `[2^52, 2^53)` by a power of two, round the 53-bit
significand half-to-even, and scale back. -/
def flRat (q : ℚ) : ℚ :=
  if q = 0 then 0
  else ((rndeRat (q / 2 ^ (qexp q - 52)) : ℤ) : ℚ) * 2 ^ (qexp q - 52)

/-- `flRat (a/b)` for `b ≥ 1` as a dyadic `(mantissa, exponent)` pair,
computed in integer arithmetic. -/
def flQ (a : ℤ) (b : ℕ) : ℤ × ℤ :=
  if a = 0 then (0, 0)
  else
    let k := floorLog2Q a.natAbs b - 52
    if 0 ≤ k then (rndeDiv a (b * 2 ^ k.toNat), k)
    else (rndeDiv (a * 2 ^ (-k).toNat) b, k)

/-- Round the dyadic `m·2^k` to the nearest integer, ties to even. -/
def rndeDyadic (m k : ℤ) : ℤ :=
  if 0 ≤ k then m * 2 ^ k.toNat else rndeDiv m (2 ^ (-k).toNat)

/-- One sample of `_apply_volume`: `round(s * (volume / 100.0))` with
binary64 arithmetic, then clamp — computed in integer arithmetic
(`scaleSample_eq` proves it equal to the rational-level float model). -/
def scaleSample (volume s_ : Int) : Int :=
  let g := flQ volume 100
  let p := if 0 ≤ g.2 then flQ (s_ * g.1 * 2 ^ g.2.toNat) 1
           else flQ (s_ * g.1) (2 ^ (-g.2).toNat)
  clamp16 (rndeDyadic p.1 p.2)

/-- Signed 16-bit little-endian decoding of one sample
(`struct.unpack("<…h", …)`). -/
def s16 (lo hi : Nat) : Int :=
  let u := lo % 256 + 256 * (hi % 256)
  if u < 32768 then (u : Int) else (u : Int) - 65536

/-- Decode a byte list into signed 16-bit little-endian samples.
`struct.unpack` requires the exact frame length; the model consumes
byte pairs (frames always have the even length 3840). -/
def bytesToSamples : List Nat → List Int
  | lo :: hi :: rest => s16 lo hi :: bytesToSamples rest
  | _ => []

/-- Encode samples back to bytes (`struct.pack("<…h", …)`),
two's-complement little-endian. -/
def samplesToBytes : List Int → List Nat
  | [] => []
  | s_ :: rest => (s_ % 65536).toNat % 256 :: (s_ % 65536).toNat / 256 :: samplesToBytes rest

/-- `Player._apply_volume` (lines 196-200). -/
def apply_volume (volume : Int) (frame : List Nat) : List Nat :=
  samplesToBytes ((bytesToSamples frame).map (scaleSample volume))

/-- The per-frame transform of `_drain_frames` (lines 190-191): the gain
stage runs only when `volume < 100`. -/
def emit_frame (volume : Int) (frame : List Nat) : List Nat :=
  if volume < 100 then apply_volume volume frame else frame

/-- The effective per-sample map of the gain stage, including the
`volume < 100` guard. -/
def eff_sample (volume s_ : Int) : Int :=
  if volume < 100 then scaleSample volume s_ else s_

/-- `Player._drain_frames` (lines 185-194): repeatedly slice
`BYTES_PER_FRAME` bytes off the front of the buffer, apply the gain stage,
and hand the frame to the sink; returns the emitted frames in order and
the remaining buffer. -/
def drain_frames (volume : Int) (buf : List Nat) : List (List Nat) × List Nat :=
  if _h : BYTES_PER_FRAME ≤ buf.length then
    let tail_result := drain_frames volume (buf.drop BYTES_PER_FRAME)
    (emit_frame volume (buf.take BYTES_PER_FRAME) :: tail_result.1, tail_result.2)
  else ([], buf)
termination_by buf.length
decreasing_by
  simp only [List.length_drop]
  have hpos : 0 < BYTES_PER_FRAME := by decide
  omega

/-! ### Claim C1: generation-based isolation (`_read_loop` / `_stop_ffmpeg`)

The decode-process supervision is modelled as a labelled transition
system.  Each spawned read task (`_read_loop`, line 152) carries the
generation captured at spawn time (line 132); `tasks` lists all tasks
ever created, most recent first — `self._read_task` is the head.

Atomicity of the modelled steps follows from the event-loop structure of
the source under serialized control operations (spec section 5):

* `stop` (lines 202-210): the generation increment (203) and the
  cancellation of the registered read task (204-205) have no `await`
  between them, so they happen in one event-loop slice;
* `spawn` (lines 130-152): `_spawn_ffmpeg` first awaits `_stop_ffmpeg`
  (131), then captures the new generation (132) and registers a read task
  tagged with it (152);
* `deliver`: a frame emission by a read task (lines 165-166, 185-194).
  Only a non-cancelled task can emit: every emission follows an `await`,
  and a cancelled task's resumption raises `CancelledError` there, which
  aborts `_drain_frames` and is swallowed at line 180.  The generation at
  the moment of delivery is recorded next to the task's tag. -/
structure ReadTask where
  tag : Nat
  cancelled : Bool
deriving DecidableEq, Repr

structure SupState where
  gen : Nat
  tasks : List ReadTask
  delivered : List (Nat × Nat)
deriving DecidableEq, Repr

def initSup : SupState := ⟨0, [], []⟩

/-- Cancel the registered (most recently spawned) read task. -/
def cancelCur : List ReadTask → List ReadTask
  | [] => []
  | t :: ts => { t with cancelled := true } :: ts

/-- The state after `_stop_ffmpeg` returns. -/
def stopped (s : SupState) : SupState :=
  { gen := s.gen + 1, tasks := cancelCur s.tasks, delivered := s.delivered }

inductive SupStep : SupState → SupState → Prop
  | stop (s : SupState) : SupStep s (stopped s)
  | spawn (s : SupState) :
      SupStep s { gen := s.gen + 1,
                  tasks := ⟨s.gen + 1, false⟩ :: cancelCur s.tasks,
                  delivered := s.delivered }
  | deliver (s : SupState) (i : Nat) (hi : i < s.tasks.length)
      (hc : (s.tasks.get ⟨i, hi⟩).cancelled = false) :
      SupStep s { gen := s.gen, tasks := s.tasks,
                  delivered := s.delivered ++ [((s.tasks.get ⟨i, hi⟩).tag, s.gen)] }

def SupReach (s : SupState) : Prop := Relation.ReflTransGen SupStep initSup s

/-- Supervisor invariant: all superseded tasks are cancelled, a live task
carries the current generation, tags never exceed the generation, and
every delivered frame was delivered under a matching generation. -/
def SupInv (s : SupState) : Prop :=
  (∀ t ∈ s.tasks.tail, t.cancelled = true)
  ∧ (∀ t ∈ s.tasks, t.cancelled = false → t.tag = s.gen)
  ∧ (∀ t ∈ s.tasks, t.tag ≤ s.gen)
  ∧ (∀ p ∈ s.delivered, p.1 = p.2)

/-! ### Claim C10: get_state snapshot sharing

`get_state` (lines 41-50) builds the snapshot dict with
`"queue": list(self._queue)`.  Python's `list(...)` creates a *fresh*
top-level list holding the *same* entry-dict references, so the
structure of the copy matters: mutating the snapshot's list itself
cannot affect the engine, but mutating an entry dict reached through the
snapshot mutates the very object the engine's queue holds.  To express
this, entries are placed on an explicit heap and the queue holds
references (heap indices), mirroring Python object identity. -/
structure EntryHeap where
  objs : List Entry
deriving DecidableEq, Repr

structure PlayerRefs where
  queueRefs : List Nat
deriving DecidableEq, Repr

def lookupEntry (h : EntryHeap) (r : Nat) : Entry := h.objs.getD r default

/-- `list(self._queue)` (line 49): a fresh top-level list containing the
same entry references. -/
def snapshot_queue_refs (p : PlayerRefs) : List Nat := p.queueRefs

/-- In-place mutation of one entry object through a reference
(e.g. `entry["title"] = t` on a dict obtained from the snapshot). -/
def set_entry_title (h : EntryHeap) (r : Nat) (t : String) : EntryHeap :=
  ⟨h.objs.set r { h.objs.getD r default with title := t }⟩

/-- The queue contents as the engine dereferences them. -/
def engine_queue_view (p : PlayerRefs) (h : EntryHeap) : List Entry :=
  p.queueRefs.map (lookupEntry h)

theorem digitsRec_lt {n : Nat} (h : n < 10) : digitsRec n = [Nat.digitChar n] := by
  conv_lhs => rw [digitsRec]
  rw [dif_pos h]

theorem digitsRec_ge {n : Nat} (h : ¬ n < 10) :
    digitsRec n = digitsRec (n / 10) ++ [Nat.digitChar (n % 10)] := by
  conv_lhs => rw [digitsRec]
  rw [dif_neg h]

theorem digitsRec_ne_nil (n : Nat) : digitsRec n ≠ [] := by
  by_cases h : n < 10
  · rw [digitsRec_lt h]; simp
  · rw [digitsRec_ge h]; simp

theorem toDigitsCore_eq_digitsRec :
    ∀ (f n : Nat) (acc : List Char), n < f →
      Nat.toDigitsCore 10 f n acc = digitsRec n ++ acc := by
  intro f
  induction f with
  | zero => intro n acc h; omega
  | succ f ih =>
    intro n acc h
    show (if n / 10 = 0 then Nat.digitChar (n % 10) :: acc
          else Nat.toDigitsCore 10 f (n / 10) (Nat.digitChar (n % 10) :: acc)) = _
    by_cases h10 : n / 10 = 0
    · have hn : n < 10 := by omega
      rw [if_pos h10, digitsRec_lt hn, Nat.mod_eq_of_lt hn]
      rfl
    · have hn : ¬ n < 10 := by omega
      have hlt : n / 10 < f := by
        have hd : n / 10 < n := Nat.div_lt_self (by omega) (by omega)
        omega
      rw [if_neg h10, ih (n / 10) _ hlt, digitsRec_ge hn, List.append_assoc]
      rfl

theorem repr_eq_digitsRec (n : Nat) : Nat.repr n = (digitsRec n).asString := by
  show (Nat.toDigitsCore 10 (n + 1) n []).asString = _
  rw [toDigitsCore_eq_digitsRec (n + 1) n [] (by omega), List.append_nil]

theorem digitChar_inj_lt : ∀ a < 10, ∀ b < 10, Nat.digitChar a = Nat.digitChar b → a = b := by
  decide

theorem digitsRec_inj : ∀ m n : Nat, digitsRec m = digitsRec n → m = n := by
  intro m
  induction m using Nat.strong_induction_on with
  | _ m ih =>
    intro n h
    by_cases hm : m < 10 <;> by_cases hn : n < 10
    · rw [digitsRec_lt hm, digitsRec_lt hn] at h
      exact digitChar_inj_lt m hm n hn (List.cons.inj h).1
    · rw [digitsRec_lt hm, digitsRec_ge hn] at h
      have hlen := congrArg List.length h
      simp at hlen
      exact absurd hlen (digitsRec_ne_nil _)
    · rw [digitsRec_ge hm, digitsRec_lt hn] at h
      have hlen := congrArg List.length h
      simp at hlen
      exact absurd hlen (digitsRec_ne_nil _)
    · rw [digitsRec_ge hm, digitsRec_ge hn] at h
      have hlen : ([Nat.digitChar (m % 10)] : List Char).length =
          ([Nat.digitChar (n % 10)] : List Char).length := rfl
      obtain ⟨h1, h2⟩ := List.append_inj' h hlen
      have hdiv : m / 10 = n / 10 := ih (m / 10) (Nat.div_lt_self (by omega) (by omega)) _ h1
      have hmod : m % 10 = n % 10 := by
        have hc := (List.cons.inj h2).1
        exact digitChar_inj_lt _ (Nat.mod_lt _ (by omega)) _ (Nat.mod_lt _ (by omega)) hc
      omega

theorem natToString_inj {m n : Nat} (h : toString m = toString n) : m = n := by
  have h2 : Nat.repr m = Nat.repr n := h
  rw [repr_eq_digitsRec, repr_eq_digitsRec] at h2
  exact digitsRec_inj m n (congrArg String.data h2)

/-! ### Shape lemmas for the playback helpers -/
theorem stop_ffmpeg_def (s : PlayerState) :
    stop_ffmpeg s = { s with ffmpeg_generation := s.ffmpeg_generation + 1,
                             spawned_url := none, pcm_buffer := [] } := rfl

theorem play_radio_of_station {s : PlayerState} {st : Station}
    (h : get_station s.current_station_id = some st) :
    play_radio s = { s with mode := "radio", current_track := none,
                            now_playing := some st.name,
                            ffmpeg_generation := s.ffmpeg_generation + 1,
                            pcm_buffer := [], spawned_url := some st.url } := by
  simp only [play_radio, h, spawn_ffmpeg, stop_ffmpeg]

theorem play_next_cons {s : PlayerState} {e : Entry} {rest : List Entry}
    (h : s.queue = e :: rest) :
    play_next_from_queue s =
      { s with mode := "queue", queue := rest, current_track := some e,
               now_playing := some e.title,
               ffmpeg_generation := s.ffmpeg_generation + 1,
               pcm_buffer := [], spawned_url := some e.url } := by
  simp only [play_next_from_queue, h, spawn_ffmpeg, stop_ffmpeg]

theorem play_next_nil {s : PlayerState} (h : s.queue = []) :
    play_next_from_queue s = play_radio s := by
  simp only [play_next_from_queue, h]

theorem coreInv_stop {s : PlayerState} (h : CoreInv s) : CoreInv (stop_ffmpeg s) :=
  ⟨h.station_ok, h.ids_nodup, h.ids_bounded, h.vol_lo, h.vol_hi⟩

theorem inv_play_radio {s : PlayerState} (h : CoreInv s) (hq : s.queue = []) :
    PlayerInv (play_radio s) := by
  obtain ⟨st, hst⟩ := Option.isSome_iff_exists.mp h.station_ok
  rw [play_radio_of_station hst]
  refine ⟨⟨h.station_ok, ?_, ?_, h.vol_lo, h.vol_hi⟩, ?_, ?_, ?_, ?_, ?_, ?_⟩
  · simp [hq]
  · intro e he; rw [hq] at he; exact absurd he (List.not_mem_nil e)
  · exact Or.inl rfl
  · intro _; exact hq
  · intro _; rfl
  · intro hmode; simp at hmode
  · intro e he; exact absurd he (by simp)
  · intro e he; exact absurd he (by simp)

theorem inv_play_next {s : PlayerState} (h : CoreInv s) :
    PlayerInv (play_next_from_queue s) := by
  cases hq : s.queue with
  | nil => rw [play_next_nil hq]; exact inv_play_radio h hq
  | cons e rest =>
    rw [play_next_cons hq]
    have hpw := h.ids_nodup
    rw [hq] at hpw
    refine ⟨⟨h.station_ok, hpw.of_cons, ?_, h.vol_lo, h.vol_hi⟩, ?_, ?_, ?_, ?_, ?_, ?_⟩
    · intro e2 he2; exact h.ids_bounded e2 (by rw [hq]; exact List.mem_cons_of_mem e he2)
    · exact Or.inr rfl
    · intro hmode; simp at hmode
    · intro hmode; simp at hmode
    · intro _; rfl
    · intro e2 he2
      cases he2
      exact h.ids_bounded e (by rw [hq]; exact List.mem_cons_self e rest)
    · intro e2 he2 e3 he3
      cases he2
      exact fun hid => (List.rel_of_pairwise_cons hpw he3) hid.symm

theorem fresh_id {s : PlayerState} (h : CoreInv s) :
    ∀ e ∈ s.queue, e.id ≠ toString (s.id_counter + 1) := by
  intro e he hid
  obtain ⟨k, hk, hek⟩ := h.ids_bounded e he
  rw [hek] at hid
  have := natToString_inj hid
  omega

theorem inv_enqueue {s : PlayerState} (h : PlayerInv s) (url title added_by : String) :
    PlayerInv (enqueue url title added_by s).2 := by
  have hfresh := fresh_id h.toCoreInv
  set e : Entry :=
    { id := toString (s.id_counter + 1), url := url,
      title := if title = "" then title_from_url url else title,
      addedBy := added_by } with he
  set s1 : PlayerState := { s with id_counter := s.id_counter + 1, queue := s.queue ++ [e] }
    with hs1
  have hcore1 : CoreInv s1 := by
    refine ⟨h.station_ok, ?_, ?_, h.vol_lo, h.vol_hi⟩
    · rw [hs1]
      simp only [List.pairwise_append]
      exact ⟨h.ids_nodup, List.pairwise_singleton _ _,
        fun a ha b hb => by
          rw [List.mem_singleton] at hb
          rw [hb, he]
          exact hfresh a ha⟩
    · intro e2 he2
      rw [hs1] at he2
      simp only [List.mem_append, List.mem_singleton] at he2
      cases he2 with
      | inl hmem =>
        obtain ⟨k, hk, hek⟩ := h.ids_bounded e2 hmem
        refine ⟨k, ?_, hek⟩
        simp only [hs1]
        omega
      | inr heq => exact ⟨s.id_counter + 1, le_refl _, by rw [heq]⟩
  show PlayerInv (if s1.mode = "radio" then (e, play_next_from_queue (stop_ffmpeg s1))
                  else (e, s1)).2
  by_cases hm : s1.mode = "radio"
  · rw [if_pos hm]
    exact inv_play_next (coreInv_stop hcore1)
  · rw [if_neg hm]
    have hmq : s.mode = "queue" := h.mode_ok.resolve_left hm
    refine ⟨hcore1, Or.inr hmq, ?_, ?_, ?_, ?_, ?_⟩
    · intro hr; exact absurd hr hm
    · intro hr; exact absurd hr hm
    · intro _; exact h.queue_track hmq
    · intro e2 he2
      obtain ⟨k, hk, hek⟩ := h.track_id e2 he2
      refine ⟨k, ?_, hek⟩
      show k ≤ s1.id_counter
      simp only [hs1]
      omega
    · intro e2 he2 e3 he3
      rw [hs1] at he3
      simp only [List.mem_append, List.mem_singleton] at he3
      cases he3 with
      | inl hmem => exact h.track_fresh e2 he2 e3 hmem
      | inr heq => 
        intro hid
        obtain ⟨k, hk, hek⟩ := h.track_id e2 he2
        rw [heq, he] at hid
        simp only at hid
        rw [hek] at hid
        have := natToString_inj hid
        omega

theorem inv_remove {s : PlayerState} (h : PlayerInv s) (entry_id : String) :
    PlayerInv (remove_from_queue entry_id s).2 := by
  unfold remove_from_queue
  cases hf : s.queue.findIdx? (fun e => e.id == entry_id) with
  | none => exact h
  | some i =>
    have hsub : List.Sublist (s.queue.eraseIdx i) s.queue := List.eraseIdx_sublist s.queue i
    refine ⟨⟨h.station_ok, h.ids_nodup.sublist hsub,
      fun e he => h.ids_bounded e (hsub.subset he), h.vol_lo, h.vol_hi⟩,
      h.mode_ok, ?_, h.radio_track, h.queue_track,
      h.track_id, fun e he e2 he2 => h.track_fresh e he e2 (hsub.subset he2)⟩
    intro hr
    have := h.radio_queue hr
    simp only [this, List.eraseIdx_nil]

theorem inv_skip {s : PlayerState} (h : PlayerInv s) : PlayerInv (skip s) := by
  unfold skip
  by_cases hm : s.mode = "queue"
  · rw [if_pos hm]; exact inv_play_next (coreInv_stop h.toCoreInv)
  · rw [if_neg hm]; exact h

theorem inv_set_station {s : PlayerState} (h : PlayerInv s) (station_id : String) :
    PlayerInv (set_station station_id s).2 := by
  unfold set_station
  cases hst : get_station station_id with
  | none => exact h
  | some st =>
    simp only
    have hok : (get_station (PlayerState.current_station_id
        { s with current_station_id := station_id })).isSome := by
      simp [hst]
    by_cases hm : s.mode = "radio"
    · rw [if_pos hm]
      exact inv_play_radio
        ⟨hok, h.ids_nodup, h.ids_bounded, h.vol_lo, h.vol_hi⟩
        (h.radio_queue hm)
    · rw [if_neg hm]
      exact ⟨⟨hok, h.ids_nodup, h.ids_bounded, h.vol_lo, h.vol_hi⟩,
        h.mode_ok, fun hr => absurd hr hm, fun hr => absurd hr hm,
        h.queue_track, h.track_id, h.track_fresh⟩

theorem inv_set_volume {s : PlayerState} (h : PlayerInv s) (vol : Int) :
    PlayerInv (set_volume vol s) :=
  ⟨⟨h.station_ok, h.ids_nodup, h.ids_bounded, le_max_left 0 _, by
      show max 0 (min 100 vol) ≤ 100
      omega⟩,
    h.mode_ok, h.radio_queue, h.radio_track, h.queue_track, h.track_id, h.track_fresh⟩

theorem inv_toggle_pause {s : PlayerState} (h : PlayerInv s) :
    PlayerInv (toggle_pause s).2 :=
  ⟨⟨h.station_ok, h.ids_nodup, h.ids_bounded, h.vol_lo, h.vol_hi⟩,
    h.mode_ok, h.radio_queue, h.radio_track, h.queue_track, h.track_id, h.track_fresh⟩

theorem inv_exhausted {s : PlayerState} (h : PlayerInv s) :
    PlayerInv (on_source_exhausted s).2 := by
  unfold on_source_exhausted
  by_cases hm : s.mode = "queue"
  · rw [if_pos hm]; exact inv_play_next h.toCoreInv
  · rw [if_neg hm]
    have hr : s.mode = "radio" := h.mode_ok.resolve_right hm
    exact inv_play_radio h.toCoreInv (h.radio_queue hr)

theorem inv_init : PlayerInv initPlayer := by
  refine ⟨⟨?_, ?_, ?_, ?_, ?_⟩, ?_, ?_, ?_, ?_, ?_, ?_⟩
  · decide
  · simp [initPlayer]
  · intro e he; simp [initPlayer] at he
  · decide
  · decide
  · exact Or.inl rfl
  · intro _; rfl
  · intro _; rfl
  · intro hm; exact absurd hm (by decide)
  · intro e he; simp [initPlayer] at he
  · intro e he; simp [initPlayer] at he

/-- Every reachable engine state satisfies the invariant. -/
theorem reach_inv {s : PlayerState} (h : Reach s) : PlayerInv s := by
  induction h with
  | init => exact inv_init
  | started => exact inv_play_radio inv_init.toCoreInv rfl
  | enqueue url title added_by _ ih => exact inv_enqueue ih url title added_by
  | remove entry_id _ ih => exact inv_remove ih entry_id
  | skip _ ih => exact inv_skip ih
  | set_station station_id _ ih => exact inv_set_station ih station_id
  | set_volume vol _ ih => exact inv_set_volume ih vol
  | toggle_pause _ ih => exact inv_toggle_pause ih
  | exhausted _ ih => exact inv_exhausted ih

/-! ### Claim C2: enqueue while AMBIENT -/
theorem enqueue_radio_eq {s : PlayerState} (url title added_by : String)
    (hm : s.mode = "radio") (hq : s.queue = []) :
    enqueue url title added_by s =
      (⟨toString (s.id_counter + 1), url,
          if title = "" then title_from_url url else title, added_by⟩,
       { s with id_counter := s.id_counter + 1, queue := [],
                mode := "queue",
                current_track := some ⟨toString (s.id_counter + 1), url,
                  if title = "" then title_from_url url else title, added_by⟩,
                now_playing := some (if title = "" then title_from_url url else title),
                ffmpeg_generation := s.ffmpeg_generation + 2,
                pcm_buffer := [],
                spawned_url := some url }) := by
  simp [enqueue, hq, hm, play_next_from_queue, spawn_ffmpeg, stop_ffmpeg]

/-- C2: enqueuing while the engine is in AMBIENT ("radio") mode appends the
entry, transitions the mode to QUEUED ("queue"), and begins playing the
earliest pending entry — which, since AMBIENT implies the pending queue is
empty (`reach_inv`), is the new entry itself — as the current track, with
its decode source spawned on the entry's URL; an empty title falls back to
the URL-derived title, and the derived title for "http://x/a.mp3" is "a"
(final path segment, percent-decoded, extension removed). -/
theorem enqueue_while_radio_spec :
    (∀ (s : PlayerState) (url title added_by : String), Reach s → s.mode = "radio" →
      (enqueue url title added_by s).2.mode = "queue"
      ∧ (enqueue url title added_by s).2.current_track = some (enqueue url title added_by s).1
      ∧ (enqueue url title added_by s).2.queue = []
      ∧ (enqueue url title added_by s).2.spawned_url = some url
      ∧ (enqueue url title added_by s).1.url = url
      ∧ (enqueue url title added_by s).1.addedBy = added_by
      ∧ (title = "" → (enqueue url title added_by s).1.title = title_from_url url))
    ∧ title_from_url "http://x/a.mp3" = "a" := by
  constructor
  · intro s url title added_by hreach hm
    have hq : s.queue = [] := (reach_inv hreach).radio_queue hm
    rw [enqueue_radio_eq url title added_by hm hq]
    refine ⟨rfl, rfl, rfl, rfl, rfl, rfl, fun ht => ?_⟩
    simp [ht]
  · decide

theorem enqueue_while_radio_witness :
    (enqueue "http://x/a.mp3" "" "alice" (play_radio initPlayer)).2.mode = "queue"
    ∧ (enqueue "http://x/a.mp3" "" "alice" (play_radio initPlayer)).2.current_track
        = some (enqueue "http://x/a.mp3" "" "alice" (play_radio initPlayer)).1
    ∧ (enqueue "http://x/a.mp3" "" "alice" (play_radio initPlayer)).1.title = "a" := by
  have h := enqueue_while_radio_spec.1 (play_radio initPlayer)
    "http://x/a.mp3" "" "alice" Reach.started rfl
  refine ⟨h.1, h.2.1, ?_⟩
  rw [h.2.2.2.2.2.2 rfl]
  exact enqueue_while_radio_spec.2

/-! ### Claim C3: skip semantics -/
/-- C3: `skip()` in QUEUED mode with an empty pending queue transitions the
engine to AMBIENT ("radio") playing the current station (decode source
spawned on the station URL, now-playing set to the station name, station id
unchanged); `skip()` in AMBIENT mode changes nothing at all. -/
theorem skip_spec :
    (∀ s : PlayerState, Reach s → s.mode = "queue" → s.queue = [] →
      (skip s).mode = "radio"
      ∧ (skip s).current_track = none
      ∧ (skip s).current_station_id = s.current_station_id
      ∧ ∃ st, get_station s.current_station_id = some st
          ∧ (skip s).spawned_url = some st.url
          ∧ (skip s).now_playing = some st.name)
    ∧ (∀ s : PlayerState, s.mode = "radio" → skip s = s) := by
  constructor
  · intro s hreach hm hq
    obtain ⟨st, hst⟩ := Option.isSome_iff_exists.mp (reach_inv hreach).station_ok
    unfold skip
    rw [if_pos hm,
      play_next_nil (show (stop_ffmpeg s).queue = [] by simpa [stop_ffmpeg] using hq),
      play_radio_of_station (show get_station (stop_ffmpeg s).current_station_id = some st
        from hst)]
    exact ⟨rfl, rfl, rfl, st, hst, rfl, rfl⟩
  · intro s hm
    unfold skip
    rw [if_neg (by rw [hm]; decide)]

theorem skip_spec_witness :
    (skip (enqueue "http://y/b.mp3" "b" "bob" (play_radio initPlayer)).2).mode = "radio"
    ∧ (skip (enqueue "http://y/b.mp3" "b" "bob" (play_radio initPlayer)).2).spawned_url
        = some "https://ice2.somafm.com/groovesalad-128-mp3"
    ∧ skip (play_radio initPlayer) = play_radio initPlayer := by
  have h := skip_spec.1 (enqueue "http://y/b.mp3" "b" "bob" (play_radio initPlayer)).2
    (Reach.enqueue "http://y/b.mp3" "b" "bob" Reach.started) rfl rfl
  obtain ⟨h1, _, _, st, hst, hurl, _⟩ := h
  refine ⟨h1, ?_, skip_spec.2 (play_radio initPlayer) rfl⟩
  rw [hurl]
  have : st = ⟨"groovesalad", "Groove Salad", "Chill",
      "https://ice2.somafm.com/groovesalad-128-mp3"⟩ := by
    have hst2 : get_station (enqueue "http://y/b.mp3" "b" "bob"
        (play_radio initPlayer)).2.current_station_id =
        some ⟨"groovesalad", "Groove Salad", "Chill",
          "https://ice2.somafm.com/groovesalad-128-mp3"⟩ := by decide
    rw [hst2] at hst
    exact (Option.some.inj hst).symm
  rw [this]

/-! ### Claim C8: remove_from_queue -/
theorem findIdx_of_split_aux {α : Type} (p : α → Bool) :
    ∀ (l1 : List α) (e : α) (l2 : List α) (i : Nat),
      (∀ x ∈ l1, p x = false) → p e = true →
      List.findIdx? p (l1 ++ e :: l2) i = some (i + l1.length) := by
  intro l1
  induction l1 with
  | nil => intro e l2 i _ hp; simp [List.findIdx?_cons, hp]
  | cons x xs ih =>
    intro e l2 i hnot hp
    have hx : p x = false := hnot x (List.mem_cons_self x xs)
    rw [List.cons_append, List.findIdx?_cons, if_neg (by simp [hx]),
      ih e l2 (i + 1) (fun y hy => hnot y (List.mem_cons_of_mem x hy)) hp]
    simp
    omega

theorem findIdx_of_split {α : Type} (p : α → Bool)
    (l1 : List α) (e : α) (l2 : List α)
    (hnot : ∀ x ∈ l1, p x = false) (hp : p e = true) :
    List.findIdx? p (l1 ++ e :: l2) = some l1.length := by
  have h := findIdx_of_split_aux p l1 e l2 0 hnot hp
  simpa using h

theorem eraseIdx_of_split {α : Type} :
    ∀ (l1 : List α) (e : α) (l2 : List α), (l1 ++ e :: l2).eraseIdx l1.length = l1 ++ l2 := by
  intro l1
  induction l1 with
  | nil => intro e l2; rfl
  | cons x xs ih => intro e l2; simp [List.eraseIdx, ih]

/-- C8: `remove_from_queue(id)` returns `false` and leaves the state
unchanged when no pending entry carries `id` — in particular (second
conjunct) when `id` is the id of the currently playing entry, which on
reachable states never sits in the pending queue; when `id` does occur,
writing the queue as `l1 ++ e :: l2` with the first match at `e`, it
returns `true` and removes exactly that entry, leaving `l1 ++ l2`, so the
relative order of all remaining entries is preserved. -/
theorem remove_from_queue_spec :
    (∀ (s : PlayerState) (entry_id : String),
      (∀ e ∈ s.queue, e.id ≠ entry_id) → remove_from_queue entry_id s = (false, s))
    ∧ (∀ (s : PlayerState) (e : Entry), Reach s → s.current_track = some e →
        remove_from_queue e.id s = (false, s))
    ∧ (∀ (s : PlayerState) (entry_id : String) (l1 : List Entry) (e : Entry) (l2 : List Entry),
        s.queue = l1 ++ e :: l2 → e.id = entry_id → (∀ e2 ∈ l1, e2.id ≠ entry_id) →
        remove_from_queue entry_id s = (true, { s with queue := l1 ++ l2 })) := by
  refine ⟨?_, ?_, ?_⟩
  · intro s entry_id hno
    unfold remove_from_queue
    rw [List.findIdx?_eq_none_iff.mpr (fun e he => by simpa using hno e he)]
  · intro s e hreach htrack
    have hfresh := (reach_inv hreach).track_fresh e htrack
    unfold remove_from_queue
    rw [List.findIdx?_eq_none_iff.mpr (fun e2 he2 => by simpa using hfresh e2 he2)]
  · intro s entry_id l1 e l2 hq hid hnot
    unfold remove_from_queue
    rw [hq, findIdx_of_split _ l1 e l2 (fun x hx => by simpa using hnot x hx) (by simp [hid])]
    show (true, { s with queue := (l1 ++ e :: l2).eraseIdx l1.length }) = _
    rw [eraseIdx_of_split]

theorem remove_from_queue_witness :
    remove_from_queue "zzz" initPlayer = (false, initPlayer)
    ∧ remove_from_queue "1"
        (enqueue "http://x/a.mp3" "t" "alice" (play_radio initPlayer)).2
      = (false, (enqueue "http://x/a.mp3" "t" "alice" (play_radio initPlayer)).2)
    ∧ remove_from_queue "2"
        (enqueue "http://y/b.mp3" "u" "bob"
          (enqueue "http://x/a.mp3" "t" "alice" (play_radio initPlayer)).2).2
      = (true, { (enqueue "http://y/b.mp3" "u" "bob"
          (enqueue "http://x/a.mp3" "t" "alice" (play_radio initPlayer)).2).2
            with queue := [] }) := by
  refine ⟨?_, ?_, ?_⟩
  · exact remove_from_queue_spec.1 initPlayer "zzz" (by intro e he; simp [initPlayer] at he)
  · exact remove_from_queue_spec.2.1
      (enqueue "http://x/a.mp3" "t" "alice" (play_radio initPlayer)).2
      ⟨"1", "http://x/a.mp3", "t", "alice"⟩
      (Reach.enqueue "http://x/a.mp3" "t" "alice" Reach.started) (by decide)
  · exact remove_from_queue_spec.2.2
      (enqueue "http://y/b.mp3" "u" "bob"
        (enqueue "http://x/a.mp3" "t" "alice" (play_radio initPlayer)).2).2
      "2" [] ⟨"2", "http://y/b.mp3", "u", "bob"⟩ []
      (by decide) rfl (by intro e2 he2; simp at he2)

/-! ### Claim C9: set_station -/
/-- C9: `set_station(id)` with an unknown id returns `False` and leaves the
whole engine state unchanged; with a valid id it returns `True` and records
the station id; and when the engine is in QUEUED mode the *only* change is
the recorded station id — mode, generation, current track, pending queue,
buffer and the live source are all untouched (no teardown). -/
theorem set_station_spec :
    (∀ (s : PlayerState) (station_id : String),
      get_station station_id = none → set_station station_id s = (false, s))
    ∧ (∀ (s : PlayerState) (station_id : String) (st : Station),
        get_station station_id = some st →
        (set_station station_id s).1 = true
        ∧ (set_station station_id s).2.current_station_id = station_id)
    ∧ (∀ (s : PlayerState) (station_id : String) (st : Station),
        get_station station_id = some st → s.mode = "queue" →
        (set_station station_id s).2 = { s with current_station_id := station_id }) := by
  refine ⟨?_, ?_, ?_⟩
  · intro s station_id hst
    unfold set_station
    rw [hst]
  · intro s station_id st hst
    unfold set_station
    rw [hst]
    simp only
    by_cases hm : s.mode = "radio"
    · rw [if_pos hm]
      refine ⟨rfl, ?_⟩
      have hok : get_station (stop_ffmpeg { s with
          current_station_id := station_id }).current_station_id = some st := hst
      rw [play_radio_of_station hok]
      rfl
    · rw [if_neg hm]
      exact ⟨rfl, rfl⟩
  · intro s station_id st hst hm
    unfold set_station
    rw [hst]
    simp only
    rw [if_neg (by simpa using fun hr => absurd (hm ▸ hr) (by decide))]

theorem set_station_witness :
    set_station "nosuch" initPlayer = (false, initPlayer)
    ∧ (set_station "dronezone" initPlayer).1 = true
    ∧ (set_station "dronezone"
        (enqueue "http://x/a.mp3" "t" "alice" (play_radio initPlayer)).2).2
      = { (enqueue "http://x/a.mp3" "t" "alice" (play_radio initPlayer)).2
            with current_station_id := "dronezone" } := by
  refine ⟨?_, ?_, ?_⟩
  · exact set_station_spec.1 initPlayer "nosuch" (by decide)
  · exact (set_station_spec.2.1 initPlayer "dronezone"
      ⟨"dronezone", "Drone Zone", "Ambient", "https://ice2.somafm.com/dronezone-128-mp3"⟩
      (by decide)).1
  · exact set_station_spec.2.2
      (enqueue "http://x/a.mp3" "t" "alice" (play_radio initPlayer)).2
      "dronezone"
      ⟨"dronezone", "Drone Zone", "Ambient", "https://ice2.somafm.com/dronezone-128-mp3"⟩
      (by decide) rfl

/-! ### Claim C4: exhausted-source policy

`_read_loop` only reaches the exhausted-source handling after re-checking
that its captured generation is still current (line 168), which is what
`on_source_exhausted` models; the whole loop body is wrapped in
`try/except`, so no exception can propagate to a caller (lines 180-183),
matching the totality of `on_source_exhausted`. -/
/-- C4: when the decode process of a queued entry exits while its
generation is still current, the engine advances to the next pending
entry (immediately, with no delay); when no entries are pending it
transitions to AMBIENT ("radio") and re-spawns the last-set station, the
delay before the station plays being at most the cooldown window; the
handler is a total function, so no error reaches any caller. -/
theorem source_exhausted_spec :
    (∀ (s : PlayerState) (e : Entry) (rest : List Entry),
      s.mode = "queue" → s.queue = e :: rest →
      (on_source_exhausted s).1 = 0
      ∧ (on_source_exhausted s).2.mode = "queue"
      ∧ (on_source_exhausted s).2.current_track = some e
      ∧ (on_source_exhausted s).2.queue = rest
      ∧ (on_source_exhausted s).2.spawned_url = some e.url)
    ∧ (∀ s : PlayerState, Reach s → s.mode = "queue" → s.queue = [] →
      (on_source_exhausted s).1 ≤ COOLDOWN_SECONDS
      ∧ (on_source_exhausted s).2.mode = "radio"
      ∧ (on_source_exhausted s).2.current_station_id = s.current_station_id
      ∧ ∃ st, get_station s.current_station_id = some st
          ∧ (on_source_exhausted s).2.spawned_url = some st.url) := by
  constructor
  · intro s e rest hm hq
    unfold on_source_exhausted
    rw [if_pos hm, play_next_cons hq]
    exact ⟨rfl, rfl, rfl, rfl, rfl⟩
  · intro s hreach hm hq
    obtain ⟨st, hst⟩ := Option.isSome_iff_exists.mp (reach_inv hreach).station_ok
    unfold on_source_exhausted
    rw [if_pos hm, play_next_nil hq, play_radio_of_station hst]
    exact ⟨by omega, rfl, rfl, st, hst, rfl⟩

theorem source_exhausted_witness :
    (on_source_exhausted
        (enqueue "http://y/b.mp3" "u" "bob"
          (enqueue "http://x/a.mp3" "t" "alice" (play_radio initPlayer)).2).2).2.current_track
      = some ⟨"2", "http://y/b.mp3", "u", "bob"⟩
    ∧ (on_source_exhausted
        (enqueue "http://x/a.mp3" "t" "alice" (play_radio initPlayer)).2).2.mode = "radio"
    ∧ (on_source_exhausted
        (enqueue "http://x/a.mp3" "t" "alice" (play_radio initPlayer)).2).1
        ≤ COOLDOWN_SECONDS := by
  refine ⟨?_, ?_, ?_⟩
  · exact (source_exhausted_spec.1
      (enqueue "http://y/b.mp3" "u" "bob"
        (enqueue "http://x/a.mp3" "t" "alice" (play_radio initPlayer)).2).2
      ⟨"2", "http://y/b.mp3", "u", "bob"⟩ [] rfl (by decide)).2.2.1
  · exact (source_exhausted_spec.2
      (enqueue "http://x/a.mp3" "t" "alice" (play_radio initPlayer)).2
      (Reach.enqueue "http://x/a.mp3" "t" "alice" Reach.started) rfl rfl).2.1
  · exact (source_exhausted_spec.2
      (enqueue "http://x/a.mp3" "t" "alice" (play_radio initPlayer)).2
      (Reach.enqueue "http://x/a.mp3" "t" "alice" Reach.started) rfl rfl).1

/-! ### Gain-stage lemmas -/
theorem clamp16_eq (x : Int) :
    clamp16 x = if x < -32768 then -32768 else if 32767 < x then 32767 else x := by
  simp only [clamp16, max_def, min_def]
  split_ifs <;> omega

theorem clamp16_lb (x : Int) : -32768 ≤ clamp16 x := by rw [clamp16_eq]; split_ifs <;> omega

theorem clamp16_ub (x : Int) : clamp16 x ≤ 32767 := by rw [clamp16_eq]; split_ifs <;> omega

theorem clamp16_mono {x y : Int} (h : x ≤ y) : clamp16 x ≤ clamp16 y := by
  rw [clamp16_eq, clamp16_eq]; split_ifs <;> omega

theorem clamp16_nonneg {x : Int} (h : 0 ≤ x) : 0 ≤ clamp16 x := by
  rw [clamp16_eq]; split_ifs <;> omega

theorem clamp16_nonpos {x : Int} (h : x ≤ 0) : clamp16 x ≤ 0 := by
  rw [clamp16_eq]; split_ifs <;> omega

/-! ### Binary64 model: rounding, binades, bridges -/
theorem rndeRat_intCast (n : ℤ) : rndeRat (n : ℚ) = n := by
  unfold rndeRat
  rw [Int.floor_intCast, sub_self, if_pos (by norm_num)]

theorem floor_le_rndeRat (q : ℚ) : ⌊q⌋ ≤ rndeRat q := by
  unfold rndeRat
  split_ifs <;> omega

theorem rndeRat_le_floor_add_one (q : ℚ) : rndeRat q ≤ ⌊q⌋ + 1 := by
  unfold rndeRat
  split_ifs <;> omega

theorem rndeRat_le (q : ℚ) : (rndeRat q : ℚ) ≤ q + 1/2 := by
  have hf := Int.floor_le q
  have hf2 := Int.lt_floor_add_one q
  unfold rndeRat
  split_ifs with h1 h2 h3 <;> push_cast <;> linarith

theorem rndeRat_ge (q : ℚ) : q - 1/2 ≤ (rndeRat q : ℚ) := by
  have hf := Int.floor_le q
  have hf2 := Int.lt_floor_add_one q
  unfold rndeRat
  split_ifs with h1 h2 h3 <;> push_cast <;> linarith

theorem rndeRat_mono {q1 q2 : ℚ} (h : q1 ≤ q2) : rndeRat q1 ≤ rndeRat q2 := by
  have hff : ⌊q1⌋ ≤ ⌊q2⌋ := Int.floor_le_floor h
  rcases lt_or_eq_of_le hff with hlt | heq
  · calc rndeRat q1 ≤ ⌊q1⌋ + 1 := rndeRat_le_floor_add_one q1
      _ ≤ ⌊q2⌋ := by omega
      _ ≤ rndeRat q2 := floor_le_rndeRat q2
  · have hr : q1 - ⌊q1⌋ ≤ q2 - ⌊q2⌋ := by
      rw [← heq]
      linarith
    unfold rndeRat
    rw [← heq]
    split_ifs with h1 h2 h3 h4 h5 h6 h7 <;> try omega
    all_goals linarith

theorem log2Nat_spec :
    ∀ (fuel n : Nat), 1 ≤ n → n ≤ fuel →
      2 ^ log2Nat fuel n ≤ n ∧ n < 2 ^ (log2Nat fuel n + 1) := by
  intro fuel
  induction fuel with
  | zero => intro n h1 h2; omega
  | succ fuel ih =>
    intro n h1 h2
    unfold log2Nat
    by_cases hn : n ≤ 1
    · rw [if_pos hn]
      constructor
      · simpa using h1
      · have : n = 1 := by omega
        rw [this]
        decide
    · rw [if_neg hn]
      have hrec := ih (n / 2) (by omega) (by omega)
      obtain ⟨hlo, hhi⟩ := hrec
      constructor
      · calc 2 ^ (log2Nat fuel (n / 2) + 1) = 2 * 2 ^ log2Nat fuel (n / 2) := by ring
          _ ≤ 2 * (n / 2) := by omega
          _ ≤ n := by omega
      · have : n < 2 * (n / 2) + 2 := by omega
        calc n < 2 * (n / 2) + 2 := this
          _ ≤ 2 * 2 ^ (log2Nat fuel (n / 2) + 1) := by omega
          _ = 2 ^ (log2Nat fuel (n / 2) + 1 + 1) := by ring

theorem mylog2_spec {n : Nat} (h : 1 ≤ n) :
    2 ^ mylog2 n ≤ n ∧ n < 2 ^ (mylog2 n + 1) :=
  log2Nat_spec n n h (le_refl n)

theorem zpow_toNat {g : ℤ} (hg : 0 ≤ g) : ((2 : ℚ) ^ g.toNat) = (2 : ℚ) ^ g := by
  rw [← zpow_natCast, Int.toNat_of_nonneg hg]

theorem pow2_le_fraction_iff {a b : ℕ} (ha : 0 < a) (hb : 0 < b) (g : ℤ) :
    pow2_le_fraction a b g = true ↔ (2 : ℚ) ^ g ≤ (a : ℚ) / (b : ℚ) := by
  have hb' : (0 : ℚ) < (b : ℚ) := by exact_mod_cast hb
  unfold pow2_le_fraction
  split_ifs with hg
  · rw [decide_eq_true_eq, le_div_iff₀ hb']
    rw [← zpow_toNat hg]
    constructor
    · intro h
      have hc : ((b * 2 ^ g.toNat : ℕ) : ℚ) ≤ (a : ℚ) := by exact_mod_cast h
      push_cast at hc
      linarith
    · intro h
      have hc : ((b * 2 ^ g.toNat : ℕ) : ℚ) ≤ (a : ℚ) := by push_cast; linarith
      exact_mod_cast hc
  · push_neg at hg
    rw [decide_eq_true_eq, le_div_iff₀ hb']
    have hneg : (0:ℤ) ≤ -g := by omega
    have h2 : ((2:ℚ) ^ (-g).toNat) = (2:ℚ) ^ (-g) := zpow_toNat hneg
    constructor
    · intro h
      have hc : ((b : ℕ) : ℚ) ≤ ((a * 2 ^ (-g).toNat : ℕ) : ℚ) := by exact_mod_cast h
      push_cast at hc
      rw [h2] at hc
      have h2pos : (0:ℚ) < (2:ℚ) ^ (-g) := zpow_pos (by norm_num) _
      calc (2:ℚ) ^ g * b = (2:ℚ) ^ g * b := rfl
        _ ≤ (2:ℚ) ^ g * ((a:ℚ) * (2:ℚ) ^ (-g)) := by
            apply mul_le_mul_of_nonneg_left hc (le_of_lt (zpow_pos (by norm_num) g))
        _ = (a : ℚ) := by
            rw [← mul_assoc, mul_comm ((2:ℚ)^g), mul_assoc, ← zpow_add₀ (by norm_num : (2:ℚ) ≠ 0)]
            simp
    · intro h
      have h2pos : (0:ℚ) < (2:ℚ) ^ (-g) := zpow_pos (by norm_num) _
      have hc : (b : ℚ) ≤ (a : ℚ) * (2:ℚ) ^ (-g) := by
        calc (b : ℚ) = (2:ℚ) ^ g * b * (2:ℚ) ^ (-g) := by
              rw [mul_comm ((2:ℚ)^g), mul_assoc, ← zpow_add₀ (by norm_num : (2:ℚ) ≠ 0)]
              simp
          _ ≤ (a : ℚ) * (2:ℚ) ^ (-g) := by
              apply mul_le_mul_of_nonneg_right h (le_of_lt h2pos)
      rw [← h2] at hc
      exact_mod_cast hc

theorem floorLog2Q_spec {a b : ℕ} (ha : 0 < a) (hb : 0 < b) :
    (2:ℚ) ^ floorLog2Q a b ≤ (a:ℚ) / b ∧ (a:ℚ) / b < (2:ℚ) ^ (floorLog2Q a b + 1) := by
  obtain ⟨hla, hla2⟩ := mylog2_spec ha
  obtain ⟨hlb, hlb2⟩ := mylog2_spec hb
  set la := mylog2 a with hladef
  set lb := mylog2 b with hlbdef
  have hb' : (0:ℚ) < b := by exact_mod_cast hb
  have cla : (a:ℚ) < (2:ℚ) ^ ((la:ℤ) + 1) := by
    have : ((a:ℕ):ℚ) < ((2 ^ (la + 1) : ℕ) : ℚ) := by exact_mod_cast hla2
    push_cast at this
    rw [show ((la:ℤ) + 1) = ((la + 1 : ℕ) : ℤ) by push_cast; ring, zpow_natCast]
    exact_mod_cast this
  have cla2 : (2:ℚ) ^ (la:ℤ) ≤ (a:ℚ) := by
    have : ((2 ^ la : ℕ) : ℚ) ≤ ((a:ℕ):ℚ) := by exact_mod_cast hla
    push_cast at this
    rw [zpow_natCast]
    exact_mod_cast this
  have clb : (2:ℚ) ^ (lb:ℤ) ≤ (b:ℚ) := by
    have : ((2 ^ lb : ℕ) : ℚ) ≤ ((b:ℕ):ℚ) := by exact_mod_cast hlb
    push_cast at this
    rw [zpow_natCast]
    exact_mod_cast this
  have clb2 : (b:ℚ) < (2:ℚ) ^ ((lb:ℤ) + 1) := by
    have : ((b:ℕ):ℚ) < ((2 ^ (lb + 1) : ℕ) : ℚ) := by exact_mod_cast hlb2
    push_cast at this
    rw [show ((lb:ℤ) + 1) = ((lb + 1 : ℕ) : ℤ) by push_cast; ring, zpow_natCast]
    exact_mod_cast this
  have hpow_pos : ∀ e : ℤ, (0:ℚ) < 2 ^ e := fun e => zpow_pos (by norm_num) e
  have hup : (a:ℚ) / b < (2:ℚ) ^ ((la:ℤ) - lb + 1) := by
    have h1 : (a:ℚ) / b < (2:ℚ) ^ ((la:ℤ) + 1) / (2:ℚ) ^ (lb:ℤ) :=
      div_lt_div₀ cla clb (le_of_lt (hpow_pos _)) (hpow_pos _)
    rw [← zpow_sub₀ (by norm_num : (2:ℚ) ≠ 0)] at h1
    have he : (la:ℤ) + 1 - lb = (la:ℤ) - lb + 1 := by ring
    rwa [he] at h1
  have hlow : (2:ℚ) ^ ((la:ℤ) - lb - 1) < (a:ℚ) / b := by
    have s1 : (2:ℚ) ^ (la:ℤ) / (2:ℚ) ^ ((lb:ℤ) + 1) < (2:ℚ) ^ (la:ℤ) / b :=
      div_lt_div_of_pos_left (hpow_pos _) hb' clb2
    have s2 : (2:ℚ) ^ (la:ℤ) / b ≤ (a:ℚ) / b := by gcongr
    have h1 := lt_of_lt_of_le s1 s2
    rw [← zpow_sub₀ (by norm_num : (2:ℚ) ≠ 0)] at h1
    have he : (la:ℤ) - ((lb:ℤ) + 1) = (la:ℤ) - lb - 1 := by ring
    rwa [he] at h1
  unfold floorLog2Q
  rw [← hladef, ← hlbdef]
  by_cases htest : pow2_le_fraction a b ((la:ℤ) - lb) = true
  · rw [if_pos htest]
    exact ⟨(pow2_le_fraction_iff ha hb _).mp htest, hup⟩
  · rw [if_neg htest]
    have hnot : ¬ (2:ℚ) ^ ((la:ℤ) - lb) ≤ (a:ℚ) / b :=
      fun hc => htest ((pow2_le_fraction_iff ha hb _).mpr hc)
    push_neg at hnot
    constructor
    · exact le_of_lt hlow
    · have he : (la:ℤ) - lb - 1 + 1 = (la:ℤ) - lb := by ring
      rw [he]
      exact hnot

theorem log2_unique {x : ℚ} {e1 e2 : ℤ} (h1 : (2:ℚ)^e1 ≤ x) (h2 : x < (2:ℚ)^(e1+1))
    (h3 : (2:ℚ)^e2 ≤ x) (h4 : x < (2:ℚ)^(e2+1)) : e1 = e2 := by
  have a1 : (2:ℚ)^e1 < 2^(e2+1) := lt_of_le_of_lt h1 h4
  have a2 : (2:ℚ)^e2 < 2^(e1+1) := lt_of_le_of_lt h3 h2
  have b1 : e1 < e2 + 1 := (zpow_lt_zpow_iff_right₀ (by norm_num : (1:ℚ) < 2)).mp a1
  have b2 : e2 < e1 + 1 := (zpow_lt_zpow_iff_right₀ (by norm_num : (1:ℚ) < 2)).mp a2
  omega

theorem qexp_spec {q : ℚ} (hq : q ≠ 0) :
    (2:ℚ) ^ qexp q ≤ |q| ∧ |q| < (2:ℚ) ^ (qexp q + 1) := by
  have hnum : q.num ≠ 0 := Rat.num_ne_zero.mpr hq
  have ha : 0 < q.num.natAbs := Int.natAbs_pos.mpr hnum
  have hd : 0 < q.den := q.pos
  have habs : |q| = (q.num.natAbs : ℚ) / (q.den : ℚ) := by
    conv_lhs => rw [← Rat.num_div_den q]
    rw [abs_div, abs_of_pos (by exact_mod_cast hd : (0:ℚ) < (q.den:ℚ))]
    congr 1
    simp [Int.cast_natAbs]
  rw [habs]
  exact floorLog2Q_spec ha hd

theorem flRat_zero : flRat 0 = 0 := by unfold flRat; rw [if_pos rfl]

theorem flRat_eq {q : ℚ} (hq : q ≠ 0) :
    flRat q = ((rndeRat (q / 2 ^ (qexp q - 52)) : ℤ) : ℚ) * 2 ^ (qexp q - 52) := by
  unfold flRat
  rw [if_neg hq]

theorem int_le_of_ratCast_lt {r n : ℤ} (h : (r:ℚ) < (n:ℚ) + 1) : r ≤ n := by
  have h2 : (r:ℚ) < ((n + 1 : ℤ) : ℚ) := by push_cast; linarith
  have h3 : r < n + 1 := by exact_mod_cast h2
  omega

theorem flRat_mantissa_bounds {q : ℚ} (hq : q ≠ 0) :
    (2:ℚ)^(52:ℤ) ≤ |q| / 2 ^ (qexp q - 52)
    ∧ |q| / 2 ^ (qexp q - 52) < (2:ℚ)^(53:ℤ) := by
  obtain ⟨hlo, hhi⟩ := qexp_spec hq
  have hp : (0:ℚ) < 2 ^ (qexp q - 52) := zpow_pos (by norm_num) _
  constructor
  · rw [le_div_iff₀ hp, ← zpow_add₀ (by norm_num : (2:ℚ) ≠ 0)]
    have he : (52:ℤ) + (qexp q - 52) = qexp q := by ring
    rw [he]
    exact hlo
  · rw [div_lt_iff₀ hp, ← zpow_add₀ (by norm_num : (2:ℚ) ≠ 0)]
    have he : (53:ℤ) + (qexp q - 52) = qexp q + 1 := by ring
    rw [he]
    exact hhi

/-- For `q > 0`: the rounded mantissa lies in `[2^52, 2^53]`. -/
theorem flRat_mantissa_int_pos {q : ℚ} (hq : 0 < q) :
    (2:ℤ)^(52:ℕ) ≤ rndeRat (q / 2 ^ (qexp q - 52))
    ∧ rndeRat (q / 2 ^ (qexp q - 52)) ≤ (2:ℤ)^(53:ℕ) := by
  obtain ⟨hlo, hhi⟩ := flRat_mantissa_bounds (ne_of_gt hq)
  rw [abs_of_pos hq] at hlo hhi
  set m := q / 2 ^ (qexp q - 52) with hm
  have h1 := rndeRat_ge m
  have h2 := rndeRat_le m
  constructor
  · have hc : ((2:ℤ)^(52:ℕ) : ℚ) - 1 < (rndeRat m : ℚ) := by
      push_cast
      have : ((2:ℚ)^(52:ℤ)) = 2^(52:ℕ) := by norm_cast
      linarith [this ▸ hlo]
    have := int_le_of_ratCast_lt (n := rndeRat m) (r := (2:ℤ)^(52:ℕ)) (by push_cast at hc ⊢; linarith)
    omega
  · apply int_le_of_ratCast_lt
    push_cast
    have : ((2:ℚ)^(53:ℤ)) = 2^(53:ℕ) := by norm_cast
    linarith [this ▸ hhi]

/-- For `q < 0`: the rounded mantissa lies in `[-2^53, -2^52]`. -/
theorem flRat_mantissa_int_neg {q : ℚ} (hq : q < 0) :
    -(2:ℤ)^(53:ℕ) ≤ rndeRat (q / 2 ^ (qexp q - 52))
    ∧ rndeRat (q / 2 ^ (qexp q - 52)) ≤ -(2:ℤ)^(52:ℕ) := by
  obtain ⟨hlo, hhi⟩ := flRat_mantissa_bounds (ne_of_lt hq)
  rw [abs_of_neg hq] at hlo hhi
  have hp : (0:ℚ) < 2 ^ (qexp q - 52) := zpow_pos (by norm_num) _
  rw [neg_div] at hlo hhi
  set m := q / 2 ^ (qexp q - 52) with hm
  have h1 := rndeRat_ge m
  have h2 := rndeRat_le m
  have hq52 : ((2:ℚ)^(52:ℤ)) = 2^(52:ℕ) := by norm_cast
  have hq53 : ((2:ℚ)^(53:ℤ)) = 2^(53:ℕ) := by norm_cast
  constructor
  · have hc : (-(2:ℤ)^(53:ℕ) : ℚ) - 1 < (rndeRat m : ℚ) := by
      push_cast
      linarith [hq53 ▸ hhi]
    have : (-(2:ℤ)^(53:ℕ) : ℚ) < (rndeRat m : ℚ) + 1 := by linarith
    have := int_le_of_ratCast_lt (r := -(2:ℤ)^(53:ℕ)) (n := rndeRat m) (by push_cast at this ⊢; linarith)
    omega
  · apply int_le_of_ratCast_lt
    push_cast
    linarith [hq52 ▸ hlo]

theorem zpow_split52 (E : ℤ) : (2:ℚ) ^ E = (2:ℚ)^(52:ℤ) * 2 ^ (E - 52) := by
  rw [← zpow_add₀ (by norm_num : (2:ℚ) ≠ 0)]
  congr 1
  ring

theorem zpow_split53 (E : ℤ) : (2:ℚ) ^ (E + 1) = (2:ℚ)^(53:ℤ) * 2 ^ (E - 52) := by
  rw [← zpow_add₀ (by norm_num : (2:ℚ) ≠ 0)]
  congr 1
  ring

theorem flRat_pos_bounds {q : ℚ} (hq : 0 < q) :
    (2:ℚ) ^ qexp q ≤ flRat q ∧ flRat q ≤ (2:ℚ) ^ (qexp q + 1) := by
  obtain ⟨hlo, hhi⟩ := flRat_mantissa_int_pos hq
  rw [flRat_eq (ne_of_gt hq)]
  have hp : (0:ℚ) < 2 ^ (qexp q - 52) := zpow_pos (by norm_num) _
  have hcl : ((2:ℚ)^(52:ℤ)) ≤ (rndeRat (q / 2 ^ (qexp q - 52)) : ℚ) := by
    have h0 : (((2:ℤ)^(52:ℕ) : ℤ) : ℚ) ≤ (rndeRat (q / 2 ^ (qexp q - 52)) : ℚ) := by
      exact_mod_cast hlo
    have h1 : ((2:ℚ)^(52:ℤ)) = (((2:ℤ)^(52:ℕ) : ℤ) : ℚ) := by norm_cast
    rw [h1]
    exact h0
  have hcu : (rndeRat (q / 2 ^ (qexp q - 52)) : ℚ) ≤ (2:ℚ)^(53:ℤ) := by
    have h0 : (rndeRat (q / 2 ^ (qexp q - 52)) : ℚ) ≤ (((2:ℤ)^(53:ℕ) : ℤ) : ℚ) := by
      exact_mod_cast hhi
    have h1 : ((2:ℚ)^(53:ℤ)) = (((2:ℤ)^(53:ℕ) : ℤ) : ℚ) := by norm_cast
    rw [h1]
    exact h0
  constructor
  · rw [zpow_split52 (qexp q)]
    exact mul_le_mul_of_nonneg_right hcl (le_of_lt hp)
  · rw [zpow_split53 (qexp q)]
    exact mul_le_mul_of_nonneg_right hcu (le_of_lt hp)

theorem flRat_neg_bounds {q : ℚ} (hq : q < 0) :
    -(2:ℚ) ^ (qexp q + 1) ≤ flRat q ∧ flRat q ≤ -(2:ℚ) ^ qexp q := by
  obtain ⟨hlo, hhi⟩ := flRat_mantissa_int_neg hq
  rw [flRat_eq (ne_of_lt hq)]
  have hp : (0:ℚ) < 2 ^ (qexp q - 52) := zpow_pos (by norm_num) _
  have hcl : -((2:ℚ)^(53:ℤ)) ≤ (rndeRat (q / 2 ^ (qexp q - 52)) : ℚ) := by
    have h0 : ((-(2:ℤ)^(53:ℕ) : ℤ) : ℚ) ≤ (rndeRat (q / 2 ^ (qexp q - 52)) : ℚ) := by
      exact_mod_cast hlo
    have h1 : -((2:ℚ)^(53:ℤ)) = ((-(2:ℤ)^(53:ℕ) : ℤ) : ℚ) := by norm_cast
    rw [h1]
    exact h0
  have hcu : (rndeRat (q / 2 ^ (qexp q - 52)) : ℚ) ≤ -((2:ℚ)^(52:ℤ)) := by
    have h0 : (rndeRat (q / 2 ^ (qexp q - 52)) : ℚ) ≤ ((-(2:ℤ)^(52:ℕ) : ℤ) : ℚ) := by
      exact_mod_cast hhi
    have h1 : -((2:ℚ)^(52:ℤ)) = ((-(2:ℤ)^(52:ℕ) : ℤ) : ℚ) := by norm_cast
    rw [h1]
    exact h0
  constructor
  · rw [show -(2:ℚ) ^ (qexp q + 1) = -((2:ℚ)^(53:ℤ)) * 2 ^ (qexp q - 52) by
      rw [zpow_split53 (qexp q)]; ring]
    exact mul_le_mul_of_nonneg_right hcl (le_of_lt hp)
  · rw [show -(2:ℚ) ^ qexp q = -((2:ℚ)^(52:ℤ)) * 2 ^ (qexp q - 52) by
      rw [zpow_split52 (qexp q)]; ring]
    exact mul_le_mul_of_nonneg_right hcu (le_of_lt hp)

theorem flRat_pos {q : ℚ} (hq : 0 < q) : 0 < flRat q :=
  lt_of_lt_of_le (zpow_pos (by norm_num) _) (flRat_pos_bounds hq).1

theorem flRat_neg' {q : ℚ} (hq : q < 0) : flRat q < 0 :=
  lt_of_le_of_lt (flRat_neg_bounds hq).2 (neg_neg_of_pos (zpow_pos (by norm_num) _))

theorem flRat_nonneg {q : ℚ} (hq : 0 ≤ q) : 0 ≤ flRat q := by
  rcases eq_or_lt_of_le hq with h | h
  · rw [← h, flRat_zero]
  · exact le_of_lt (flRat_pos h)

theorem flRat_nonpos {q : ℚ} (hq : q ≤ 0) : flRat q ≤ 0 := by
  rcases eq_or_lt_of_le hq with h | h
  · rw [h, flRat_zero]
  · exact le_of_lt (flRat_neg' h)

theorem flRat_mono_same_exp {q1 q2 : ℚ} (h1 : q1 ≠ 0) (h2 : q2 ≠ 0)
    (hE : qexp q1 = qexp q2) (h : q1 ≤ q2) : flRat q1 ≤ flRat q2 := by
  rw [flRat_eq h1, flRat_eq h2, ← hE]
  have hp : (0:ℚ) < 2 ^ (qexp q1 - 52) := zpow_pos (by norm_num) _
  apply mul_le_mul_of_nonneg_right _ (le_of_lt hp)
  have hdiv : q1 / 2 ^ (qexp q1 - 52) ≤ q2 / 2 ^ (qexp q1 - 52) := by gcongr
  exact_mod_cast rndeRat_mono hdiv

theorem flRat_mono_pos {q1 q2 : ℚ} (hq1 : 0 < q1) (h : q1 ≤ q2) :
    flRat q1 ≤ flRat q2 := by
  have hq2 : 0 < q2 := lt_of_lt_of_le hq1 h
  have hE : qexp q1 ≤ qexp q2 := by
    obtain ⟨l1, _⟩ := qexp_spec (ne_of_gt hq1)
    obtain ⟨_, u2⟩ := qexp_spec (ne_of_gt hq2)
    rw [abs_of_pos hq1] at l1
    rw [abs_of_pos hq2] at u2
    have hc : (2:ℚ) ^ qexp q1 < 2 ^ (qexp q2 + 1) :=
      lt_of_le_of_lt (le_trans l1 h) u2
    have := (zpow_lt_zpow_iff_right₀ (by norm_num : (1:ℚ) < 2)).mp hc
    omega
  rcases eq_or_lt_of_le hE with hEe | hElt
  · exact flRat_mono_same_exp (ne_of_gt hq1) (ne_of_gt hq2) hEe h
  · calc flRat q1 ≤ 2 ^ (qexp q1 + 1) := (flRat_pos_bounds hq1).2
      _ ≤ 2 ^ qexp q2 := zpow_le_zpow_right₀ (by norm_num) (by omega)
      _ ≤ flRat q2 := (flRat_pos_bounds hq2).1

theorem flRat_mono_neg {q1 q2 : ℚ} (hq2 : q2 < 0) (h : q1 ≤ q2) :
    flRat q1 ≤ flRat q2 := by
  have hq1 : q1 < 0 := lt_of_le_of_lt h hq2
  have hE : qexp q2 ≤ qexp q1 := by
    obtain ⟨l2, _⟩ := qexp_spec (ne_of_lt hq2)
    obtain ⟨_, u1⟩ := qexp_spec (ne_of_lt hq1)
    rw [abs_of_neg hq2] at l2
    rw [abs_of_neg hq1] at u1
    have hc : (2:ℚ) ^ qexp q2 < 2 ^ (qexp q1 + 1) :=
      lt_of_le_of_lt (le_trans l2 (by linarith)) u1
    have := (zpow_lt_zpow_iff_right₀ (by norm_num : (1:ℚ) < 2)).mp hc
    omega
  rcases eq_or_lt_of_le hE with hEe | hElt
  · exact flRat_mono_same_exp (ne_of_lt hq1) (ne_of_lt hq2) hEe.symm h
  · calc flRat q1 ≤ -(2:ℚ) ^ qexp q1 := (flRat_neg_bounds hq1).2
      _ ≤ -(2:ℚ) ^ (qexp q2 + 1) := by
        apply neg_le_neg
        exact zpow_le_zpow_right₀ (by norm_num) (by omega)
      _ ≤ flRat q2 := (flRat_neg_bounds hq2).1

theorem flRat_mono {q1 q2 : ℚ} (h : q1 ≤ q2) : flRat q1 ≤ flRat q2 := by
  rcases lt_trichotomy q2 0 with hq2 | hq2 | hq2
  · exact flRat_mono_neg hq2 h
  · rw [hq2, flRat_zero]
    exact flRat_nonpos (hq2 ▸ h)
  · rcases lt_trichotomy q1 0 with hq1 | hq1 | hq1
    · exact le_trans (le_of_lt (flRat_neg' hq1)) (le_of_lt (flRat_pos hq2))
    · rw [hq1, flRat_zero]
      exact le_of_lt (flRat_pos hq2)
    · exact flRat_mono_pos hq1 h

/-- Integers of magnitude below `2^53` are exactly representable. -/
theorem flRat_intCast {n : ℤ} (hn : |n| < 2^(53:ℕ)) : flRat (n:ℚ) = (n:ℚ) := by
  rcases eq_or_ne n 0 with h0 | h0
  · rw [h0]
    push_cast
    exact flRat_zero
  · have hq0 : (n:ℚ) ≠ 0 := Int.cast_ne_zero.mpr h0
    obtain ⟨hlo, hhi⟩ := qexp_spec hq0
    set E := qexp (n:ℚ) with hE
    have habs : |(n:ℚ)| = ((|n| : ℤ) : ℚ) := by push_cast; rfl
    have hE52 : E ≤ 52 := by
      have h1 : (2:ℚ)^E < ((2:ℤ)^(53:ℕ) : ℚ) := by
        apply lt_of_le_of_lt hlo
        rw [habs]
        exact_mod_cast hn
      have h2 : ((2:ℤ)^(53:ℕ) : ℚ) = (2:ℚ)^(53:ℤ) := by norm_cast
      rw [h2] at h1
      have := (zpow_lt_zpow_iff_right₀ (by norm_num : (1:ℚ) < 2)).mp h1
      omega
    set j : ℕ := (52 - E).toNat with hj
    have hjeq : (j:ℤ) = 52 - E := Int.toNat_of_nonneg (by omega)
    have hm : (n:ℚ) / 2^(E - 52) = ((n * 2^j : ℤ) : ℚ) := by
      push_cast
      rw [← zpow_natCast (2:ℚ) j, hjeq, show (52 : ℤ) - E = -(E - 52) by ring, zpow_neg,
        div_eq_mul_inv]
    rw [flRat_eq hq0, ← hE, hm, rndeRat_intCast]
    push_cast
    rw [← zpow_natCast (2:ℚ) j, hjeq, mul_assoc,
      ← zpow_add₀ (by norm_num : (2:ℚ) ≠ 0),
      show (52 : ℤ) - E + (E - 52) = 0 by ring, zpow_zero, mul_one]

theorem flRat_one : flRat 1 = 1 := by
  have h := flRat_intCast (n := 1) (by norm_num)
  push_cast at h
  exact h

/-! The integer pipeline computes the rational-level model. -/

theorem rndeDiv_eq (a : ℤ) {b : ℕ} (hb : 0 < b) :
    rndeDiv a b = rndeRat ((a:ℚ) / (b:ℚ)) := by
  have hbq : (0:ℚ) < (b:ℚ) := by exact_mod_cast hb
  have hfloor : ⌊(a:ℚ)/(b:ℚ)⌋ = a / (b:ℤ) := Rat.floor_intCast_div_natCast a b
  have hdm : (b:ℤ) * (a / (b:ℤ)) + a % (b:ℤ) = a := Int.ediv_add_emod a (b:ℤ)
  have hfract : (a:ℚ)/(b:ℚ) - ((a / (b:ℤ) : ℤ):ℚ) = ((a % (b:ℤ) : ℤ):ℚ) / (b:ℚ) := by
    have hcast : ((b:ℕ) : ℚ) * ((a / (b:ℤ) : ℤ) : ℚ) + ((a % (b:ℤ) : ℤ) : ℚ) = (a:ℚ) := by
      exact_mod_cast congrArg (fun z : ℤ => (z:ℚ)) hdm
    field_simp
    linarith
  have hc1 : ((a % (b:ℤ) : ℤ):ℚ)/(b:ℚ) < 1/2 ↔ 2 * (a % (b:ℤ)) < (b:ℤ) := by
    rw [div_lt_iff₀ hbq]
    constructor
    · intro h
      have hcast : ((2 * (a % (b:ℤ)) : ℤ):ℚ) < (((b:ℤ)):ℚ) := by push_cast; linarith
      exact_mod_cast hcast
    · intro h
      have hcast : ((2 * (a % (b:ℤ)) : ℤ):ℚ) < (((b:ℤ)):ℚ) := by exact_mod_cast h
      push_cast at hcast
      linarith
  have hc2 : (1:ℚ)/2 < ((a % (b:ℤ) : ℤ):ℚ)/(b:ℚ) ↔ (b:ℤ) < 2 * (a % (b:ℤ)) := by
    rw [div_lt_div_iff₀ (by norm_num) hbq]
    constructor
    · intro h
      have hcast : (((b:ℤ)):ℚ) < ((2 * (a % (b:ℤ)) : ℤ):ℚ) := by push_cast; linarith
      exact_mod_cast hcast
    · intro h
      have hcast : (((b:ℤ)):ℚ) < ((2 * (a % (b:ℤ)) : ℤ):ℚ) := by exact_mod_cast h
      push_cast at hcast
      linarith
  unfold rndeRat rndeDiv
  rw [hfloor, hfract]
  by_cases h1 : 2 * (a % (b:ℤ)) < (b:ℤ)
  · rw [if_pos h1, if_pos (hc1.mpr h1)]
  · rw [if_neg h1, if_neg (fun hq => h1 (hc1.mp hq))]
    by_cases h2 : (b:ℤ) < 2 * (a % (b:ℤ))
    · rw [if_pos h2, if_pos (hc2.mpr h2)]
    · rw [if_neg h2, if_neg (fun hq => h2 (hc2.mp hq))]

theorem rndeDyadic_eq (m k : ℤ) : rndeDyadic m k = rndeRat ((m:ℚ) * 2 ^ k) := by
  unfold rndeDyadic
  by_cases hk : 0 ≤ k
  · rw [if_pos hk]
    have : (m:ℚ) * 2 ^ k = ((m * 2 ^ k.toNat : ℤ) : ℚ) := by
      push_cast
      rw [← zpow_natCast (2:ℚ) k.toNat, Int.toNat_of_nonneg hk]
    rw [this, rndeRat_intCast]
  · rw [if_neg hk]
    rw [rndeDiv_eq m (b := 2 ^ (-k).toNat) (pow_pos (by norm_num) _)]
    congr 1
    have hc : ((2 ^ (-k).toNat : ℕ) : ℚ) = (2:ℚ) ^ (((-k).toNat : ℕ) : ℤ) := by
      push_cast
      rw [← zpow_natCast]
    rw [hc, Int.toNat_of_nonneg (by omega : (0:ℤ) ≤ -k), div_eq_mul_inv, ← zpow_neg,
      neg_neg]

theorem flQ_val (a : ℤ) {b : ℕ} (hb : 0 < b) :
    ((flQ a b).1 : ℚ) * 2 ^ (flQ a b).2 = flRat ((a:ℚ) / (b:ℚ)) := by
  have hbq : (0:ℚ) < (b:ℚ) := by exact_mod_cast hb
  rcases eq_or_ne a 0 with h0 | h0
  · rw [h0]
    show ((flQ 0 b).1 : ℚ) * 2 ^ (flQ 0 b).2 = flRat ((0:ℤ) / (b:ℚ))
    have : flQ 0 b = (0, 0) := by unfold flQ; rw [if_pos rfl]
    rw [this]
    push_cast
    rw [zero_div, flRat_zero]
    ring
  · have hq0 : (a:ℚ)/(b:ℚ) ≠ 0 := div_ne_zero (Int.cast_ne_zero.mpr h0) (ne_of_gt hbq)
    have habs : |(a:ℚ)/(b:ℚ)| = ((a.natAbs:ℕ):ℚ)/(b:ℚ) := by
      rw [abs_div, abs_of_pos hbq]
      congr 1
      simp [Int.cast_natAbs]
    have hE : floorLog2Q a.natAbs b = qexp ((a:ℚ)/(b:ℚ)) := by
      have s1 := floorLog2Q_spec (Int.natAbs_pos.mpr h0) hb
      have s2 := qexp_spec hq0
      rw [habs] at s2
      exact log2_unique s1.1 s1.2 s2.1 s2.2
    have hflq : flQ a b =
        (if 0 ≤ floorLog2Q a.natAbs b - 52
         then (rndeDiv a (b * 2 ^ (floorLog2Q a.natAbs b - 52).toNat),
               floorLog2Q a.natAbs b - 52)
         else (rndeDiv (a * 2 ^ (-(floorLog2Q a.natAbs b - 52)).toNat) b,
               floorLog2Q a.natAbs b - 52)) := by
      unfold flQ
      rw [if_neg h0]
    rw [flRat_eq hq0, ← hE]
    set k := floorLog2Q a.natAbs b - 52 with hk
    by_cases hks : 0 ≤ k
    · rw [hflq, if_pos hks]
      show ((rndeDiv a (b * 2 ^ k.toNat) : ℤ) : ℚ) * 2 ^ k = _
      rw [rndeDiv_eq a (b := b * 2 ^ k.toNat) (by positivity)]
      congr 2
      push_cast
      rw [div_mul_eq_div_div]
      congr 1
      rw [← zpow_natCast (2:ℚ) k.toNat, Int.toNat_of_nonneg hks]
    · rw [hflq, if_neg hks]
      show ((rndeDiv (a * 2 ^ (-k).toNat) b : ℤ) : ℚ) * 2 ^ k = _
      rw [rndeDiv_eq (a * 2 ^ (-k).toNat) hb]
      congr 2
      push_cast
      rw [← zpow_natCast (2:ℚ) (-k).toNat, Int.toNat_of_nonneg (by omega : (0:ℤ) ≤ -k),
        zpow_neg, div_div]
      rw [div_eq_mul_inv, div_eq_mul_inv, mul_inv, mul_assoc, mul_comm ((2:ℚ)^k)⁻¹]

theorem scaleSample_eq (v s : ℤ) :
    scaleSample v s = clamp16 (rndeRat (flRat ((s:ℚ) * flRat ((v:ℚ) / 100)))) := by
  have hgval : (((flQ v 100).1 : ℚ)) * 2 ^ (flQ v 100).2 = flRat ((v:ℚ)/100) := by
    have h := flQ_val v (b := 100) (by norm_num)
    have h100 : ((100:ℕ):ℚ) = (100:ℚ) := by norm_num
    rw [h100] at h
    exact h
  simp only [scaleSample]
  by_cases hk : 0 ≤ (flQ v 100).2
  · rw [if_pos hk]
    congr 1
    have hpval := flQ_val (s * (flQ v 100).1 * 2 ^ (flQ v 100).2.toNat) (b := 1) (by norm_num)
    rw [rndeDyadic_eq, hpval]
    congr 2
    push_cast
    rw [div_one, ← zpow_natCast (2:ℚ) (flQ v 100).2.toNat, Int.toNat_of_nonneg hk,
      mul_assoc, hgval]
  · rw [if_neg hk]
    congr 1
    have hpval := flQ_val (s * (flQ v 100).1) (b := 2 ^ (-(flQ v 100).2).toNat)
      (pow_pos (by norm_num) _)
    rw [rndeDyadic_eq, hpval]
    congr 2
    push_cast
    rw [← zpow_natCast (2:ℚ) (-(flQ v 100).2).toNat,
      Int.toNat_of_nonneg (by omega : (0:ℤ) ≤ -(flQ v 100).2),
      div_eq_mul_inv, ← zpow_neg, neg_neg, mul_assoc, hgval]

theorem rndeRat_nonneg {q : ℚ} (h : 0 ≤ q) : 0 ≤ rndeRat q := by
  have h2 := rndeRat_mono h
  rwa [show (0:ℚ) = ((0:ℤ):ℚ) by norm_num, rndeRat_intCast] at h2

theorem rndeRat_nonpos {q : ℚ} (h : q ≤ 0) : rndeRat q ≤ 0 := by
  have h2 := rndeRat_mono h
  rwa [show (0:ℚ) = ((0:ℤ):ℚ) by norm_num, rndeRat_intCast] at h2

theorem gain_nonneg {v : ℤ} (hv : 0 ≤ v) : 0 ≤ flRat ((v:ℚ)/100) :=
  flRat_nonneg (div_nonneg (by exact_mod_cast hv) (by norm_num))

theorem gain_le_one {v : ℤ} (hv : v ≤ 100) : flRat ((v:ℚ)/100) ≤ 1 := by
  have h1 : ((v:ℚ)/100) ≤ 1 := by
    rw [div_le_one (by norm_num : (0:ℚ) < 100)]
    exact_mod_cast hv
  calc flRat ((v:ℚ)/100) ≤ flRat 1 := flRat_mono h1
    _ = 1 := flRat_one

theorem flRat_int16 {s : ℤ} (hlo : -32768 ≤ s) (hhi : s ≤ 32767) :
    flRat ((s:ℚ)) = (s:ℚ) :=
  flRat_intCast (by
    have h53 : (2:ℤ)^(53:ℕ) = 9007199254740992 := by norm_num
    rw [abs_lt, h53]
    omega)

theorem scaleSample_nonneg {v s : ℤ} (hv : 0 ≤ v) (hs : 0 ≤ s) :
    0 ≤ scaleSample v s := by
  rw [scaleSample_eq, clamp16_eq]
  have h := rndeRat_nonneg (flRat_nonneg
    (mul_nonneg (show (0:ℚ) ≤ (s:ℚ) by exact_mod_cast hs) (gain_nonneg hv)))
  split_ifs <;> omega

theorem scaleSample_nonpos {v s : ℤ} (hv : 0 ≤ v) (hs : s ≤ 0) :
    scaleSample v s ≤ 0 := by
  rw [scaleSample_eq, clamp16_eq]
  have h := rndeRat_nonpos (flRat_nonpos
    (mul_nonpos_of_nonpos_of_nonneg (show (s:ℚ) ≤ 0 by exact_mod_cast hs)
      (gain_nonneg hv)))
  split_ifs <;> omega

theorem scaleSample_le_of_nonneg {v s : ℤ} (hv0 : 0 ≤ v) (hv1 : v ≤ 100)
    (hs : 0 ≤ s) (hhi : s ≤ 32767) : scaleSample v s ≤ s := by
  have hprod : (s:ℚ) * flRat ((v:ℚ)/100) ≤ (s:ℚ) :=
    mul_le_of_le_one_right (by exact_mod_cast hs) (gain_le_one hv1)
  have hfl : flRat ((s:ℚ) * flRat ((v:ℚ)/100)) ≤ (s:ℚ) := by
    calc flRat ((s:ℚ) * flRat ((v:ℚ)/100)) ≤ flRat ((s:ℚ)) := flRat_mono hprod
      _ = (s:ℚ) := flRat_int16 (by omega) hhi
  have hrnd : rndeRat (flRat ((s:ℚ) * flRat ((v:ℚ)/100))) ≤ s := by
    have h2 := rndeRat_mono hfl
    rwa [rndeRat_intCast] at h2
  rw [scaleSample_eq, clamp16_eq]
  split_ifs <;> omega

theorem le_scaleSample_of_nonpos {v s : ℤ} (hv0 : 0 ≤ v) (hv1 : v ≤ 100)
    (hs : s ≤ 0) (hlo : -32768 ≤ s) : s ≤ scaleSample v s := by
  have hprod : (s:ℚ) ≤ (s:ℚ) * flRat ((v:ℚ)/100) := by
    have h2 := mul_le_mul_of_nonpos_left (gain_le_one hv1) (by exact_mod_cast hs : (s:ℚ) ≤ 0)
    rwa [mul_one] at h2
  have hfl : (s:ℚ) ≤ flRat ((s:ℚ) * flRat ((v:ℚ)/100)) := by
    calc (s:ℚ) = flRat ((s:ℚ)) := (flRat_int16 hlo (by omega)).symm
      _ ≤ flRat ((s:ℚ) * flRat ((v:ℚ)/100)) := flRat_mono hprod
  have hrnd : s ≤ rndeRat (flRat ((s:ℚ) * flRat ((v:ℚ)/100))) := by
    have h2 := rndeRat_mono hfl
    rwa [rndeRat_intCast] at h2
  rw [scaleSample_eq, clamp16_eq]
  split_ifs <;> omega

theorem scaleSample_abs_le {v s : ℤ} (h0 : 0 ≤ v) (h100 : v ≤ 100)
    (hlo : -32768 ≤ s) (hhi : s ≤ 32767) : |scaleSample v s| ≤ |s| := by
  rcases le_or_lt 0 s with hs | hs
  · rw [abs_of_nonneg (scaleSample_nonneg h0 hs), abs_of_nonneg hs]
    exact scaleSample_le_of_nonneg h0 h100 hs hhi
  · rw [abs_of_nonpos (scaleSample_nonpos h0 (le_of_lt hs)), abs_of_nonpos (le_of_lt hs)]
    have := le_scaleSample_of_nonpos h0 h100 (le_of_lt hs) hlo
    omega

theorem scaleSample_mono_v {v1 v2 s : ℤ} (h0 : 0 ≤ v1) (h12 : v1 ≤ v2) :
    (0 ≤ s → scaleSample v1 s ≤ scaleSample v2 s)
    ∧ (s ≤ 0 → scaleSample v2 s ≤ scaleSample v1 s) := by
  have hgain : flRat ((v1:ℚ)/100) ≤ flRat ((v2:ℚ)/100) := by
    apply flRat_mono
    apply div_le_div_of_nonneg_right ?_ (by norm_num)
    · exact_mod_cast h12
  constructor
  · intro hs
    have hprod : (s:ℚ) * flRat ((v1:ℚ)/100) ≤ (s:ℚ) * flRat ((v2:ℚ)/100) :=
      mul_le_mul_of_nonneg_left hgain (by exact_mod_cast hs)
    have hrnd := rndeRat_mono (flRat_mono hprod)
    rw [scaleSample_eq, scaleSample_eq, clamp16_eq, clamp16_eq]
    split_ifs <;> omega
  · intro hs
    have hprod : (s:ℚ) * flRat ((v2:ℚ)/100) ≤ (s:ℚ) * flRat ((v1:ℚ)/100) :=
      mul_le_mul_of_nonpos_left hgain (by exact_mod_cast hs)
    have hrnd := rndeRat_mono (flRat_mono hprod)
    rw [scaleSample_eq, scaleSample_eq, clamp16_eq, clamp16_eq]
    split_ifs <;> omega

/-- Monotonicity of the effective per-sample gain in the volume. -/
theorem eff_sample_abs_mono {v1 v2 s_ : Int} (h0 : 0 ≤ v1) (h12 : v1 ≤ v2)
    (hlo : -32768 ≤ s_) (hhi : s_ ≤ 32767) :
    |eff_sample v1 s_| ≤ |eff_sample v2 s_| := by
  unfold eff_sample
  rcases le_or_lt 100 v1 with hv1 | hv1
  · rw [if_neg (by omega), if_neg (by omega)]
  · rcases le_or_lt 100 v2 with hv2 | hv2
    · rw [if_pos hv1, if_neg (by omega)]
      exact scaleSample_abs_le h0 (by omega) hlo hhi
    · rw [if_pos hv1, if_pos hv2]
      obtain ⟨hmp, hmn⟩ := scaleSample_mono_v h0 h12 (s := s_)
      rcases le_or_lt 0 s_ with hs | hs
      · rw [abs_of_nonneg (scaleSample_nonneg h0 hs),
          abs_of_nonneg (scaleSample_nonneg (by omega) hs)]
        exact hmp hs
      · rw [abs_of_nonpos (scaleSample_nonpos h0 (le_of_lt hs)),
          abs_of_nonpos (scaleSample_nonpos (by omega) (le_of_lt hs))]
        have := hmn (le_of_lt hs)
        omega

/-! ### Byte codec lemmas -/
theorem s16_pack (s_ : Int) (h1 : -32768 ≤ s_) (h2 : s_ ≤ 32767) :
    s16 ((s_ % 65536).toNat % 256) ((s_ % 65536).toNat / 256) = s_ := by
  have hnn : (0 : Int) ≤ s_ % 65536 := Int.emod_nonneg s_ (by norm_num)
  have hu : ((s_ % 65536).toNat : Int) = s_ % 65536 := Int.toNat_of_nonneg hnn
  simp only [s16]
  generalize hn : (s_ % 65536).toNat = n at hu
  split <;> omega

theorem bytesToSamples_samplesToBytes :
    ∀ l : List Int, (∀ x ∈ l, -32768 ≤ x ∧ x ≤ 32767) →
      bytesToSamples (samplesToBytes l) = l := by
  intro l
  induction l with
  | nil => intro _; rfl
  | cons s_ rest ih =>
    intro h
    have hs := h s_ (List.mem_cons_self s_ rest)
    simp only [samplesToBytes, bytesToSamples]
    rw [s16_pack s_ hs.1 hs.2, ih (fun x hx => h x (List.mem_cons_of_mem s_ hx))]

theorem samplesToBytes_length : ∀ l : List Int, (samplesToBytes l).length = 2 * l.length
  | [] => rfl
  | s_ :: rest => by
    simp only [samplesToBytes, List.length_cons, samplesToBytes_length rest]
    omega

theorem bytesToSamples_length : ∀ l : List Nat, (bytesToSamples l).length = l.length / 2
  | [] => rfl
  | [x] => by
    show ([] : List Int).length = [x].length / 2
    simp
  | _ :: _ :: rest => by
    simp only [bytesToSamples, List.length_cons, bytesToSamples_length rest]
    omega

theorem apply_volume_length (v : Int) (f : List Nat) (heven : f.length % 2 = 0) :
    (apply_volume v f).length = f.length := by
  simp only [apply_volume, samplesToBytes_length, List.length_map, bytesToSamples_length]
  omega

theorem emit_frame_length (v : Int) (f : List Nat) (h : f.length = BYTES_PER_FRAME) :
    (emit_frame v f).length = BYTES_PER_FRAME := by
  unfold emit_frame
  split
  · rw [apply_volume_length v f (by rw [h]; decide), h]
  · exact h

/-! ### Claim C5: identity at volume 100 and monotonicity -/
/-- C5: at volume 100 the gain stage is skipped entirely, so the bytes
handed to the sink are the input bytes unmodified; and the effective
per-sample magnitude is monotone in the volume: scaling at `v1 < v2` never
produces a larger magnitude than scaling at `v2` (the per-sample map
`eff_sample` includes the `volume < 100` bypass of `_drain_frames`). -/
theorem volume_scaling_spec :
    (∀ frame : List Nat, emit_frame 100 frame = frame)
    ∧ (∀ v1 v2 s_ : Int, 0 ≤ v1 → v1 < v2 → -32768 ≤ s_ → s_ ≤ 32767 →
        |eff_sample v1 s_| ≤ |eff_sample v2 s_|) := by
  constructor
  · intro frame
    simp [emit_frame]
  · intro v1 v2 s_ h0 h12 hlo hhi
    exact eff_sample_abs_mono h0 (le_of_lt h12) hlo hhi

theorem volume_scaling_witness :
    emit_frame 100 [1, 2, 3, 4] = [1, 2, 3, 4]
    ∧ |eff_sample 30 (-1000)| ≤ |eff_sample 60 (-1000)| :=
  ⟨volume_scaling_spec.1 [1, 2, 3, 4],
   volume_scaling_spec.2 30 60 (-1000) (by decide) (by decide) (by decide) (by decide)⟩

/-! ### Claim C6: per-sample formula, clamping, no wraparound -/

/-- C6 counterexample: the claimed per-sample formula — round-half-even of
the exact `s * v/100`, clamped — is false of the program.  At `v = 7` and
the sample `150` (frame bytes `[150, 0]`), the float pipeline computes
`gain = fl(7/100) = 0.07000000000000000666…`, the product rounds to
`fl(150 * gain) = 10.500000000000001776…`, and `round` gives `11`; the
exact formula `round(10.5)` ties to even and gives `10`. -/
theorem apply_volume_float_counterexample :
    bytesToSamples (apply_volume 7 [150, 0]) = [11]
    ∧ clamp16 (pyRound100 (150 * 7)) = 10
    ∧ bytesToSamples (apply_volume 7 [150, 0]) ≠ [clamp16 (pyRound100 (150 * 7))] := by
  decide

/-- C6 (amended): for `0 ≤ v < 100`, the gain stage maps each decoded
sample `s` to `round(s * fl(v/100))` — the binary64 product of `s` with
the binary64 gain, rounded half-to-even — clamped into `[-32768, 32767]`
(at tie-adjacent inputs this differs by one from round-half-even of the
exact `s * v/100`, e.g. `11` rather than `10` at `s = 150, v = 7`);
every output sample lies in the representable 16-bit range, and decoding
the re-packed bytes returns exactly the clamped values — the pack step
wraps nothing around. -/
theorem apply_volume_spec :
    ∀ v : Int, 0 ≤ v → v < 100 → ∀ frame : List Nat,
      bytesToSamples (apply_volume v frame)
        = (bytesToSamples frame).map
            (fun s_ : Int => clamp16 (rndeRat (flRat ((s_ : ℚ) * flRat ((v : ℚ) / 100)))))
      ∧ ∀ x ∈ bytesToSamples (apply_volume v frame), -32768 ≤ x ∧ x ≤ 32767 := by
  intro v _ _ frame
  have hrange : ∀ x ∈ (bytesToSamples frame).map (scaleSample v),
      -32768 ≤ x ∧ x ≤ 32767 := by
    intro x hx
    obtain ⟨y, _, hy⟩ := List.mem_map.mp hx
    rw [← hy, scaleSample_eq, clamp16_eq]
    split_ifs <;> omega
  have hrt := bytesToSamples_samplesToBytes _ hrange
  constructor
  · rw [apply_volume, hrt]
    exact List.map_congr_left (fun s_ _ => scaleSample_eq v s_)
  · intro x hx
    rw [apply_volume, hrt] at hx
    exact hrange x hx

theorem apply_volume_witness :
    bytesToSamples (apply_volume 50 [16, 0, 255, 255])
      = List.map
          (fun s_ : Int => clamp16 (rndeRat (flRat ((s_ : ℚ) * flRat ((50 : ℚ) / 100)))))
          (bytesToSamples [16, 0, 255, 255]) :=
  (apply_volume_spec 50 (by decide) (by decide) [16, 0, 255, 255]).1

/-! ### Claim C7: exact frames, stream order, buffer reset -/
theorem drain_frames_spec_aux (v : Int) :
    ∀ (n : Nat) (buf : List Nat), buf.length ≤ n →
      ∃ slices : List (List Nat),
        buf = slices.flatten ++ (drain_frames v buf).2
        ∧ (∀ sl ∈ slices, sl.length = BYTES_PER_FRAME)
        ∧ (drain_frames v buf).1 = slices.map (emit_frame v)
        ∧ (drain_frames v buf).2.length < BYTES_PER_FRAME := by
  intro n
  induction n with
  | zero =>
    intro buf hb
    have hlt : ¬ BYTES_PER_FRAME ≤ buf.length := by
      have hp : (0 : Nat) < BYTES_PER_FRAME := by decide
      omega
    rw [drain_frames, dif_neg hlt]
    refine ⟨[], by simp, by simp, rfl, ?_⟩
    show buf.length < BYTES_PER_FRAME
    omega
  | succ n ih =>
    intro buf hb
    by_cases hge : BYTES_PER_FRAME ≤ buf.length
    · have hdroplen : (buf.drop BYTES_PER_FRAME).length ≤ n := by
        rw [List.length_drop]
        have hp : (0 : Nat) < BYTES_PER_FRAME := by decide
        omega
      obtain ⟨slices, hjoin, hlens, hfst, hsnd⟩ := ih (buf.drop BYTES_PER_FRAME) hdroplen
      rw [drain_frames, dif_pos hge]
      refine ⟨buf.take BYTES_PER_FRAME :: slices, ?_, ?_, ?_, ?_⟩
      · show buf = (List.take BYTES_PER_FRAME buf :: slices).flatten
          ++ (drain_frames v (List.drop BYTES_PER_FRAME buf)).2
        rw [List.flatten_cons, List.append_assoc, ← hjoin, List.take_append_drop]
      · intro sl hsl
        rcases List.mem_cons.mp hsl with h | h
        · rw [h, List.length_take]
          omega
        · exact hlens sl h
      · show emit_frame v (List.take BYTES_PER_FRAME buf)
            :: (drain_frames v (List.drop BYTES_PER_FRAME buf)).1
          = List.map (emit_frame v) (List.take BYTES_PER_FRAME buf :: slices)
        rw [List.map_cons, hfst]
      · show (drain_frames v (List.drop BYTES_PER_FRAME buf)).2.length < BYTES_PER_FRAME
        exact hsnd
    · rw [drain_frames, dif_neg hge]
      refine ⟨[], by simp, by simp, rfl, ?_⟩
      show buf.length < BYTES_PER_FRAME
      omega

/-- C7: `_drain_frames` hands the sink exactly `BYTES_PER_FRAME`-byte
frames (3840 bytes = 960 samples x 2 channels x 2 bytes for 20ms at
48kHz), sliced off the front of the accumulation buffer in stream order
(the buffer is the concatenation of the raw slices followed by the
remainder, and the emitted frames are the gain-staged slices in the same
order); a partial frame is never emitted (the remainder is always shorter
than one frame and stays in the buffer); and both `_spawn_ffmpeg` and
`_stop_ffmpeg` reset the buffer to empty, so no buffered bytes survive a
source switch. -/
theorem frame_slicer_spec :
    (∀ (v : Int) (buf : List Nat),
      ∃ slices : List (List Nat),
        buf = slices.flatten ++ (drain_frames v buf).2
        ∧ (∀ sl ∈ slices, sl.length = BYTES_PER_FRAME)
        ∧ (drain_frames v buf).1 = slices.map (emit_frame v)
        ∧ (∀ f ∈ (drain_frames v buf).1, f.length = BYTES_PER_FRAME)
        ∧ (drain_frames v buf).2.length < BYTES_PER_FRAME)
    ∧ SAMPLES_PER_FRAME = 960
    ∧ BYTES_PER_FRAME = 3840
    ∧ (∀ (s : PlayerState) (url : String),
        (spawn_ffmpeg url s).pcm_buffer = [] ∧ (stop_ffmpeg s).pcm_buffer = []) := by
  refine ⟨?_, rfl, rfl, fun s url => ⟨rfl, rfl⟩⟩
  intro v buf
  obtain ⟨slices, hjoin, hlens, hfst, hsnd⟩ :=
    drain_frames_spec_aux v buf.length buf (le_refl _)
  refine ⟨slices, hjoin, hlens, hfst, ?_, hsnd⟩
  intro f hf
  rw [hfst] at hf
  obtain ⟨sl, hsl, hemit⟩ := List.mem_map.mp hf
  rw [← hemit]
  exact emit_frame_length v sl (hlens sl hsl)

theorem frame_slicer_witness :
    (spawn_ffmpeg "http://x/a.mp3" initPlayer).pcm_buffer = []
    ∧ (drain_frames 80 [1, 2, 3]).2.length < BYTES_PER_FRAME := by
  obtain ⟨slices, _, _, _, _, hsnd⟩ := frame_slicer_spec.1 80 [1, 2, 3]
  exact ⟨(frame_slicer_spec.2.2.2 initPlayer "http://x/a.mp3").1, hsnd⟩

theorem mem_cancelCur_tag {l : List ReadTask} {t : ReadTask} (h : t ∈ cancelCur l) :
    ∃ t0 ∈ l, t.tag = t0.tag := by
  cases l with
  | nil => simp [cancelCur] at h
  | cons t0 ts =>
    simp only [cancelCur, List.mem_cons] at h
    rcases h with h | h
    · exact ⟨t0, List.mem_cons_self t0 ts, by rw [h]⟩
    · exact ⟨t, List.mem_cons_of_mem t0 h, rfl⟩

theorem cancelCur_all_cancelled {l : List ReadTask}
    (htail : ∀ t ∈ l.tail, t.cancelled = true) :
    ∀ t ∈ cancelCur l, t.cancelled = true := by
  cases l with
  | nil => simp [cancelCur]
  | cons t0 ts =>
    intro t ht
    simp only [cancelCur, List.mem_cons] at ht
    rcases ht with ht | ht
    · rw [ht]
    · exact htail t ht

theorem supInv_init : SupInv initSup := by
  refine ⟨?_, ?_, ?_, ?_⟩ <;> intro t ht <;> simp [initSup] at ht

theorem supInv_step {s s2 : SupState} (h : SupInv s) (hstep : SupStep s s2) : SupInv s2 := by
  obtain ⟨htail, hlive, hbound, hdel⟩ := h
  cases hstep with
  | stop =>
    refine ⟨?_, ?_, ?_, hdel⟩
    · intro t ht
      simp only [stopped] at ht
      cases hl : s.tasks with
      | nil => rw [hl] at ht; simp [cancelCur] at ht
      | cons t0 ts =>
        rw [hl] at ht
        simp only [cancelCur, List.tail_cons] at ht
        exact htail t (by rw [hl]; exact ht)
    · intro t ht hc
      simp only [stopped] at ht
      have := cancelCur_all_cancelled htail t ht
      rw [this] at hc
      exact absurd hc (by simp)
    · intro t ht
      simp only [stopped] at ht
      obtain ⟨t0, ht0, htag⟩ := mem_cancelCur_tag ht
      have := hbound t0 ht0
      show t.tag ≤ s.gen + 1
      omega
  | spawn =>
    refine ⟨?_, ?_, ?_, hdel⟩
    · intro t ht
      simp only [List.tail_cons] at ht
      exact cancelCur_all_cancelled htail t ht
    · intro t ht hc
      simp only [List.mem_cons] at ht
      rcases ht with ht | ht
      · rw [ht]
      · have := cancelCur_all_cancelled htail t ht
        rw [this] at hc
        exact absurd hc (by simp)
    · intro t ht
      simp only [List.mem_cons] at ht
      rcases ht with ht | ht
      · rw [ht]
      · obtain ⟨t0, ht0, htag⟩ := mem_cancelCur_tag ht
        have := hbound t0 ht0
        show t.tag ≤ s.gen + 1
        omega
  | deliver i hi hc =>
    refine ⟨htail, hlive, hbound, ?_⟩
    intro p hp
    simp only [List.mem_append, List.mem_singleton] at hp
    rcases hp with hp | hp
    · exact hdel p hp
    · rw [hp]
      exact hlive _ (s.tasks.get_mem i hi) hc

theorem supReach_inv {s : SupState} (h : SupReach s) : SupInv s := by
  induction h with
  | refl => exact supInv_init
  | tail _ hstep ih => exact supInv_step ih hstep

theorem sup_gen_step {s s2 : SupState} (h : SupStep s s2) : s.gen ≤ s2.gen := by
  cases h with
  | stop =>
    show s.gen ≤ s.gen + 1
    omega
  | spawn =>
    show s.gen ≤ s.gen + 1
    omega
  | deliver i hi hc =>
    show s.gen ≤ s.gen
    omega

theorem sup_gen_mono {s s2 : SupState} (h : Relation.ReflTransGen SupStep s s2) :
    s.gen ≤ s2.gen := by
  induction h with
  | refl => exact le_refl _
  | tail _ hstep ih => exact le_trans ih (sup_gen_step hstep)

theorem sup_delivered_step {s s2 : SupState} (h : SupStep s s2) :
    ∀ p ∈ s2.delivered, p ∈ s.delivered ∨ p.2 = s.gen := by
  cases h with
  | stop => intro p hp; exact Or.inl hp
  | spawn => intro p hp; exact Or.inl hp
  | deliver i hi hc =>
    intro p hp
    simp only [List.mem_append, List.mem_singleton] at hp
    rcases hp with hp | hp
    · exact Or.inl hp
    · right
      rw [hp]

theorem sup_delivered_after {s s2 : SupState} (h : Relation.ReflTransGen SupStep s s2) :
    ∀ p ∈ s2.delivered, p ∈ s.delivered ∨ s.gen ≤ p.2 := by
  induction h with
  | refl => intro p hp; exact Or.inl hp
  | tail hsteps hstep ih =>
    intro p hp
    rcases sup_delivered_step hstep p hp with h1 | h1
    · exact ih p h1
    · exact Or.inr (le_trans (sup_gen_mono hsteps) (le_of_eq h1.symm))

/-- C1: in every reachable supervisor state, at most one read task (hence
at most one decode process) is live — tagged with the latest generation —
and a live task's tag is exactly the current generation; every frame ever
delivered to the sink was delivered by a task whose tag equals the
generation current at that instant, so frames read under a superseded
generation are never delivered; and after a `_stop_ffmpeg` step every
later-delivered frame carries a tag strictly greater than the tag of any
task (and its process) that existed when the stop began — no bytes from
the torn-down process reach the frame slicer or sink. -/
theorem generation_isolation_spec :
    (∀ s : SupState, SupReach s →
      (s.tasks.filter (fun t => !t.cancelled)).length ≤ 1
      ∧ (∀ t ∈ s.tasks, t.cancelled = false → t.tag = s.gen)
      ∧ (∀ p ∈ s.delivered, p.1 = p.2))
    ∧ (∀ s s2 : SupState, SupReach s →
        Relation.ReflTransGen SupStep (stopped s) s2 →
        ∀ t ∈ s.tasks, ∀ p ∈ s2.delivered, p ∉ s.delivered → t.tag < p.1) := by
  constructor
  · intro s hreach
    obtain ⟨htail, hlive, hbound, hdel⟩ := supReach_inv hreach
    refine ⟨?_, hlive, hdel⟩
    cases hl : s.tasks with
    | nil => simp
    | cons t0 ts =>
      have hts : ∀ t ∈ ts, t.cancelled = true := by
        intro t ht
        exact htail t (by rw [hl]; exact ht)
      have hfilter : ts.filter (fun t => !t.cancelled) = [] := by
        rw [List.filter_eq_nil_iff]
        intro t ht
        simp [hts t ht]
      simp only [List.filter_cons]
      split
      · simp [hfilter]
      · simp [hfilter]
  · intro s s2 hreach hsteps t ht p hp hnew
    have hreach2 : SupReach s2 :=
      Relation.ReflTransGen.trans (Relation.ReflTransGen.tail hreach (SupStep.stop s)) hsteps
    obtain ⟨_, _, _, hdel2⟩ := supReach_inv hreach2
    obtain ⟨_, _, hbound, _⟩ := supReach_inv hreach
    have hp2 := sup_delivered_after hsteps p hp
    rcases hp2 with h1 | h1
    · exact absurd h1 hnew
    · have h2 : s.gen + 1 ≤ p.2 := h1
      have h3 : p.1 = p.2 := hdel2 p hp
      have h4 : t.tag ≤ s.gen := hbound t ht
      omega

theorem generation_isolation_witness :
    (∀ p ∈ (⟨1, [⟨1, false⟩], [(1, 1)]⟩ : SupState).delivered, p.1 = p.2)
    ∧ ((⟨1, [⟨1, false⟩], [(1, 1)]⟩ : SupState).tasks.filter
        (fun t => !t.cancelled)).length ≤ 1 := by
  have h1 : SupStep initSup ⟨1, [⟨1, false⟩], []⟩ := SupStep.spawn initSup
  have h2 : SupStep ⟨1, [⟨1, false⟩], []⟩ ⟨1, [⟨1, false⟩], [(1, 1)]⟩ :=
    SupStep.deliver ⟨1, [⟨1, false⟩], []⟩ 0 (by decide) rfl
  have hreach : SupReach ⟨1, [⟨1, false⟩], [(1, 1)]⟩ :=
    Relation.ReflTransGen.tail (Relation.ReflTransGen.tail Relation.ReflTransGen.refl h1) h2
  exact ⟨(generation_isolation_spec.1 _ hreach).2.2, (generation_isolation_spec.1 _ hreach).1⟩

/-- C10 counterexample: mutating a queue entry reached through the
snapshot *does* alter engine state.  With one entry on the heap and the
engine queue holding a reference to it, retitling the entry through the
snapshot's (shared) reference changes what the engine's queue
dereferences to — refuting the claim that mutating the queue entries
inside the returned snapshot does not alter engine state. -/
theorem get_state_shallow_copy_counterexample :
    engine_queue_view ⟨[0]⟩
        (set_entry_title ⟨[⟨"1", "http://x/a.mp3", "a", "alice"⟩]⟩
          ((snapshot_queue_refs ⟨[0]⟩).getD 0 0) "changed")
      ≠ engine_queue_view ⟨[0]⟩ ⟨[⟨"1", "http://x/a.mp3", "a", "alice"⟩]⟩ := by
  decide

/-- C10 (amended): `get_state` has no side effects (the engine state is
unchanged by taking a snapshot), and the snapshot's queue is a fresh
top-level list — but it holds the same entry references as the engine's
queue (a shallow copy), so mutating an entry object through any snapshot
reference is visible in the engine's queue view. -/
theorem get_state_snapshot_spec :
    (∀ s : PlayerState, (get_state s).2 = s
      ∧ (get_state s).1.mode = s.mode
      ∧ (get_state s).1.paused = s.paused
      ∧ (get_state s).1.volume = s.volume
      ∧ (get_state s).1.nowPlaying = s.now_playing
      ∧ (get_state s).1.currentStation = get_station s.current_station_id
      ∧ (get_state s).1.queue = s.queue)
    ∧ (∀ p : PlayerRefs, snapshot_queue_refs p = p.queueRefs)
    ∧ (∀ (p : PlayerRefs) (h : EntryHeap) (i : Nat) (t : String)
        (hi : i < p.queueRefs.length),
        p.queueRefs.get ⟨i, hi⟩ < h.objs.length →
        (lookupEntry h (p.queueRefs.get ⟨i, hi⟩)).title ≠ t →
        engine_queue_view p (set_entry_title h (p.queueRefs.get ⟨i, hi⟩) t)
          ≠ engine_queue_view p h) := by
  refine ⟨fun s => ⟨rfl, rfl, rfl, rfl, rfl, rfl, rfl⟩, fun p => rfl, ?_⟩
  intro p h i t hi hr ht heq
  set r := p.queueRefs.get ⟨i, hi⟩ with hrdef
  have hgets := congrArg (fun l => l[i]?) heq
  simp only [engine_queue_view, List.getElem?_map] at hgets
  have hidx : p.queueRefs[i]? = some p.queueRefs[i] := List.getElem?_eq_getElem hi
  rw [hidx] at hgets
  simp only [Option.map_some'] at hgets
  have hsome := Option.some.inj hgets
  have hri : p.queueRefs[i] = r := by rw [hrdef]; simp [List.get_eq_getElem]
  rw [hri] at hsome
  have hset : lookupEntry (set_entry_title h r t) r
      = { h.objs.getD r default with title := t } := by
    simp [lookupEntry, set_entry_title, List.getD, List.getElem?_set_self hr]
  rw [hset] at hsome
  apply ht
  have := congrArg Entry.title hsome
  simpa [lookupEntry] using this.symm

theorem get_state_snapshot_witness :
    (get_state initPlayer).2 = initPlayer
    ∧ engine_queue_view ⟨[0]⟩
        (set_entry_title ⟨[⟨"1", "http://x/a.mp3", "a", "alice"⟩]⟩
          ((⟨[0]⟩ : PlayerRefs).queueRefs.get ⟨0, by decide⟩) "changed")
      ≠ engine_queue_view ⟨[0]⟩ ⟨[⟨"1", "http://x/a.mp3", "a", "alice"⟩]⟩ :=
  ⟨(get_state_snapshot_spec.1 initPlayer).1,
   get_state_snapshot_spec.2.2 ⟨[0]⟩ ⟨[⟨"1", "http://x/a.mp3", "a", "alice"⟩]⟩ 0 "changed"
     (by decide) (by decide) (by decide)⟩
